import Mathlib

/-!
Verification of the storium-backend figmentator core against its
natural-language specification.  Python strings are modeled as `List Char`,
Python `int` as `Int`, Python `None`-able values as `Option`, and code that
can raise an exception as `Except`-valued functions.  The regex- and
unicode-based chunkers (`RangeUnits.chunk` in `models/range.py`) are library
routines; the logic under verification is chunker-independent, so theorems
about it quantify over the chunk function, and concrete instances use the
`tokens` chunker (Python `str.split`, embedded below as `pySplit`), which is
exactly representable.
-/

namespace Storium

/-- Enum of range units from `models/range.py` (`RangeUnits`). -/
inductive RangeUnits where
  | chars
  | words
  | tokens
  | sentences
deriving DecidableEq, Repr

/-- A portion of a range, which may have a start and/or an end
(`models/range.py`, class `Subrange`).  The Python field `end` is named
`end'` here because `end` is a Lean keyword. -/
structure Subrange where
  start : Option Int
  end' : Option Int
deriving DecidableEq, Repr

/-- Model of a Python `slice` object with its `start` and `stop` fields. -/
structure PySlice where
  start : Option Int
  stop : Option Int
deriving DecidableEq, Repr

/-- Embeds `Subrange.get_slice`: `slice(self.start, self.end if self.start is
None or self.end is None else self.end + 1)`. -/
def Subrange.get_slice (sr : Subrange) : PySlice :=
  ⟨sr.start,
    if sr.start = none ∨ sr.end' = none then sr.end' else sr.end'.map (· + 1)⟩

/-- Definition of a range (`models/range.py`, class `Range`): a unit and a
list of subranges, both bounds inclusive. -/
structure Range where
  unit : RangeUnits
  ranges : List Subrange
deriving DecidableEq, Repr

/-- Embeds the `Range.slices` property: `[r.get_slice() for r in self.ranges]`. -/
def Range.slices (r : Range) : List PySlice :=
  r.ranges.map Subrange.get_slice

/-- Embeds `Range.is_finite`: exactly one subrange, with both bounds set. -/
def Range.is_finite (r : Range) : Bool :=
  if r.ranges.length ≠ 1 then false
  else match r.ranges with
    | sr :: _ => sr.start ≠ none ∧ sr.end' ≠ none
    | [] => false

/-- Status of a figment (`models/figment.py`); the Python member `partial`
is rendered `partialStatus` here. -/
inductive FigmentStatus where
  | pending
  | failed
  | partialStatus
  | completed
deriving DecidableEq, Repr

/-- Scene entry: of the large record in `models/storium.py` only the
`description` field (an optional string) is read or mutated by the core;
all other fields are passed through unchanged and are omitted. -/
structure SceneEntry where
  description : Option (List Char)
deriving DecidableEq, Repr

/-- Context needed to generate a figment (`models/figment.py`,
`FigmentContext`): status, optional range and the scene entry.  The opaque
preprocessed `data` blob is never inspected by the verified code. -/
structure FigmentContext where
  status : FigmentStatus
  range : Option Range
  entry : SceneEntry
deriving DecidableEq, Repr

/-!
Model of `figment/scheduler.py`.  A completion handle (`asyncio` future) is
modeled by its final disposition: `none` if it is never resolved, or
`some (.ok v)` / `some (.error e)` if `set_result` / `set_exception` is
called on it.  Each future occupies one slot, so "resolved at most once" is
structural and "resolved exactly once" is "the slot is not `none`".
`queue.task_done()` calls are counted.
-/

/-- State of a `FigmentatorResource`: the `ready` event, the in-scope user
`count`, and a `generation` counter standing for the identity of the
current model + process-pool pair (bumped by every `acquire`). -/
structure ResState where
  ready : Bool
  count : Nat
  generation : Nat
deriving DecidableEq, Repr

/-- Embeds `FigmentatorResource.acquire`: clear `ready`, build a fresh
process pool and figmentator (generation bump), then set `ready`. -/
def ResState.acquire (s : ResState) : ResState :=
  { s with ready := true, generation := s.generation + 1 }

/-- Embeds `FigmentatorResource.release`: clear `ready` and drop the
executor and figmentator. -/
def ResState.release (s : ResState) : ResState :=
  { s with ready := false }

/-- Embeds `FigmentatorResource.renew`: `release` then `acquire`. -/
def ResState.renew (s : ResState) : ResState :=
  s.release.acquire

/-- Embeds `FigmentatorResource.__aenter__`: wait for `ready`, then count
one more in-scope user. -/
def ResState.aenter (s : ResState) : ResState :=
  { s with count := s.count + 1 }

/-- Embeds `FigmentatorResource.__aexit__`: drop the user count and, when
`ready` is cleared and no user remains in scope, `renew`. -/
def ResState.aexit (s : ResState) : ResState :=
  let s' := { s with count := s.count - 1 }
  if ¬s'.ready ∧ s'.count = 0 then s'.renew else s'

/-- Resolutions delivered by the success path of
`FigmentatorResource.process`: `for future, result in zip(futures, results):
future.set_result(result)`.  Futures beyond `results.length` keep slot
`none` (they are never touched, because `zip` stops at the shorter list). -/
def resolveOk {F R E : Type} (futures : List F) (results : List R) :
    List (Option (Except E R)) :=
  (results.take futures.length).map (fun r => some (Except.ok r)) ++
    List.replicate (futures.length - results.length) none

/-- Embeds `FigmentatorResource.process` (`figment/scheduler.py`, lines
154-176).  The call `self.figmentator.figmentate(batch)` either returns a
result list or raises; `outcome` is that result.  Returned: the new
resource state, the disposition of each paired future (aligned with
`futures`), and the number of `queue.task_done()` calls issued. -/
def processRes {F R E : Type} (s : ResState) (futures : List F)
    (outcome : Except E (List R)) :
    ResState × List (Option (Except E R)) × Nat :=
  match outcome with
  | Except.ok results =>
      (s, resolveOk futures results, min futures.length results.length)
  | Except.error e =>
      ({ s with ready := false },
        futures.map (fun _ => some (Except.error e)), futures.length)

/-- Batch accumulation of `FigmentScheduler.main_loop` (lines 233-248): one
blocking `queue.get()` yields `first`; then, while the batch is smaller
than `maxBatch`, each `wait_for(queue.get(), wait_time)` either yields an
item (`some`) or times out (`none`, breaking the loop).  `arrivals` is the
stream of those outcomes. -/
def formBatchGo {I : Type} (maxBatch : Nat) :
    List I → List (Option I) → List I
  | acc, [] => acc
  | acc, a :: rest =>
      if acc.length < maxBatch then
        match a with
        | none => acc
        | some i => formBatchGo maxBatch (acc ++ [i]) rest
      else acc

/-- Batch formed by one worker iteration of `FigmentScheduler.main_loop`. -/
def formBatch {I : Type} (maxBatch : Nat) (first : I)
    (arrivals : List (Option I)) : List I :=
  formBatchGo maxBatch [first] arrivals

/-!
Embedding of the `tokens` chunker: `RangeUnits.chunk` maps `tokens` to
`str.split`, Python's no-argument split (split on runs of whitespace,
dropping empty pieces).  We model the ASCII fragment of Python's notion of
whitespace.
-/

/-- Whitespace test used by Python `str.split()` (ASCII fragment). -/
def isSpc (c : Char) : Bool :=
  c = ' ' ∨ c = '\t' ∨ c = '\n' ∨ c = '\r' ∨ c = '\x0b' ∨ c = '\x0c'

/-- Worker for `pySplit`; `acc` holds the word currently being scanned. -/
def splitGo : List Char → List Char → List (List Char)
  | [], acc => if acc.isEmpty then [] else [acc]
  | c :: cs, acc =>
      if isSpc c then
        if acc.isEmpty then splitGo cs [] else acc :: splitGo cs []
      else splitGo cs (acc ++ [c])

/-- Embeds Python `str.split()` with no separator: split on whitespace
runs, no empty pieces.  This is the `tokens` chunker of
`RangeUnits.chunk`. -/
def pySplit (t : List Char) : List (List Char) :=
  splitGo t []

/-- Chunk-function family: a stand-in for `RangeUnits.chunk`.  The argument
order is unit, `keep_fragments`, text; the result is the list of chunks
(for the `chars` unit the NFC-normalized string is viewed as the list of
its one-character chunks, so that `len` agrees). -/
def Chunk : Type :=
  RangeUnits → Bool → List Char → List (List Char)

/-- Concrete chunk family used for closed witnesses and counterexamples:
every unit is given the `tokens` chunker (`str.split`).  All concrete
inputs below use `RangeUnits.tokens`, for which this family is exactly the
source's chunker. -/
def splitChunk : Chunk :=
  fun _ _ t => pySplit t

/-!
Embedding of the `Range` wire grammar of `models/range.py`:

  `SUBRANGE_REGEX_STR = r"((?<!=),)?(?P<start>\d+|(?!-(,|$)))-(?P<end>(\d+)?)"`
  `RANGE_REGEX_STR = f"(?P<unit>({'|'.join(RangeUnits)}))=(?P<ranges>({SUBRANGE_REGEX_STR})+)"`

`Range.validate` full-matches `RANGE_REGEX` and rebuilds the subranges by
scanning the `ranges` group with `SUBRANGE_REGEX` (which, on any string in
the language of `(SUBRANGE)+`, recovers exactly the subranges the full
match consumed); `Range.__str__` renders `unit=start-end,start-end,...`
with absent bounds rendered empty.  The parser below is the recursive
descent equivalent of that regex: the `\d+` alternative of `start` is taken
greedily (it is followed by the literal `-`, so shorter digit runs can
never match and the empty-start alternative requires an immediate `-`,
which a leading digit excludes); the empty `start` alternative carries the
negative lookahead `(?!-(,|$))`; the optional leading comma carries the
lookbehind `(?<!=)`, i.e. it is unavailable at the very start of the
`ranges` group (`first = true`). -/

/-- Decimal digit characters, as matched by `\d` (ASCII fragment). -/
def digitsVal (ds : List Char) : Nat :=
  ds.foldl (fun a c => 10 * a + (c.toNat - 48)) 0

/-- One digit as a character, for rendering numbers the way Python
`str(int)` does. -/
def digitChar10 (d : Nat) : Char :=
  match d with
  | 0 => '0' | 1 => '1' | 2 => '2' | 3 => '3' | 4 => '4'
  | 5 => '5' | 6 => '6' | 7 => '7' | 8 => '8' | _ => '9'

/-- Decimal rendering of a natural number (Python `str` of a non-negative
`int`). -/
def natToChars (n : Nat) : List Char :=
  if n = 0 then ['0'] else ((Nat.digits 10 n).reverse.map digitChar10)

/-- Decimal rendering of an integer (Python `str(int)`). -/
def intToChars (i : Int) : List Char :=
  if i < 0 then '-' :: natToChars i.natAbs else natToChars i.toNat

/-- Negative-lookahead test `(?!-(,|$))` of the empty `start` alternative:
having just consumed nothing, the upcoming `-` may not be followed by a
comma or the end of the string.  `rest` is the input after that `-`. -/
def lookFail (rest : List Char) : Bool :=
  match rest with
  | [] => true
  | c :: _ => decide (c = ',')

/-- Matches one `SUBRANGE` (without its optional leading comma) at the head
of `cs`, returning the parsed subrange and the unconsumed remainder:
`(?P<start>\d+|(?!-(,|$)))-(?P<end>(\d+)?)`.  `int(v) if v else None`
turns an empty group into `None`. -/
def matchSubCore (cs : List Char) : Option (Subrange × List Char) :=
  let ds := cs.takeWhile Char.isDigit
  if ds.isEmpty then
    match cs with
    | '-' :: rest =>
        if lookFail rest then none
        else
          let es := rest.takeWhile Char.isDigit
          some (⟨none, if es.isEmpty then none else some (digitsVal es)⟩,
            rest.dropWhile Char.isDigit)
    | _ => none
  else
    match cs.dropWhile Char.isDigit with
    | '-' :: rest =>
        let es := rest.takeWhile Char.isDigit
        some (⟨some (digitsVal ds), if es.isEmpty then none else some (digitsVal es)⟩,
          rest.dropWhile Char.isDigit)
    | _ => none

/-- Matches one `SUBRANGE` including the optional leading comma
`((?<!=),)?`; `first` records whether the previous character is the `=`
sign (where the lookbehind forbids the comma).  As in the regex, the comma
alternative is tried first and the engine falls back to the comma-less
parse if the remainder does not match. -/
def matchSub (first : Bool) (cs : List Char) : Option (Subrange × List Char) :=
  match cs with
  | c :: rest =>
      if first = false ∧ c = ',' then
        match matchSubCore rest with
        | some r => some r
        | none => matchSubCore (c :: rest)
      else matchSubCore (c :: rest)
  | [] => matchSubCore []

/-- Matches `(SUBRANGE)+` against all of `cs` (the regex is full-matched,
so the repetition must consume the whole `ranges` group).  `fuel` bounds
the recursion; every subrange consumes at least one character, so any
`fuel ≥ cs.length` computes the match. -/
def subrangesFrom : Nat → Bool → List Char → Option (List Subrange)
  | 0, _, _ => none
  | fuel + 1, first, cs =>
      match matchSub first cs with
      | none => none
      | some (sr, rest) =>
          if rest.isEmpty then some [sr]
          else
            match subrangesFrom fuel false rest with
            | none => none
            | some l => some (sr :: l)

/-- Characters of a unit's name (the enum value, used on the wire). -/
def unitChars (u : RangeUnits) : List Char :=
  match u with
  | RangeUnits.chars => ['c', 'h', 'a', 'r', 's']
  | RangeUnits.words => ['w', 'o', 'r', 'd', 's']
  | RangeUnits.tokens => ['t', 'o', 'k', 'e', 'n', 's']
  | RangeUnits.sentences => ['s', 'e', 'n', 't', 'e', 'n', 'c', 'e', 's']

/-- Strips an expected leading sequence, returning the remainder. -/
def stripPre : List Char → List Char → Option (List Char)
  | [], s => some s
  | _ :: _, [] => none
  | p :: ps, c :: cs => if p = c then stripPre ps cs else none

/-- Tries one alternative of the `unit` group followed by the literal `=`
and the `ranges` group. -/
def tryUnit (u : RangeUnits) (s : List Char) : Option Range :=
  (stripPre (unitChars u ++ ['=']) s).bind
    (fun rest => (subrangesFrom rest.length true rest).map (Range.mk u))

/-- Embeds `Range.validate` on a string input (`models/range.py`, lines
109-135): full-match `RANGE_REGEX` — the unit alternatives are tried in
enum order — and build the `Range` from the matched groups; `none` models
the raised `ValidationError` when the regex does not match. -/
def rangeValidate (s : List Char) : Option Range :=
  match tryUnit RangeUnits.chars s with
  | some r => some r
  | none =>
    match tryUnit RangeUnits.words s with
    | some r => some r
    | none =>
      match tryUnit RangeUnits.tokens s with
      | some r => some r
      | none => tryUnit RangeUnits.sentences s

/-- Rendering of one subrange by `Range.__str__`: `("" if r.start is None
else str(r.start)) + "-" + ("" if r.end is None else str(r.end))`. -/
def renderSub (sr : Subrange) : List Char :=
  (match sr.start with | none => [] | some i => intToChars i) ++
    '-' :: (match sr.end' with | none => [] | some i => intToChars i)

/-- Comma-joined rendering of the subrange list (`",".join(...)`). -/
def renderList : List Subrange → List Char
  | [] => []
  | [sr] => renderSub sr
  | sr :: rest => renderSub sr ++ ',' :: renderList rest

/-- Embeds `Range.__str__`: `f"{self.unit.value}={ranges}"`. -/
def rangeRender (r : Range) : List Char :=
  unitChars r.unit ++ '=' :: renderList r.ranges

/-- Subranges whose wire form survives the round trip: at least one bound
present (a bare `-` fails the parser's negative lookahead) and bounds
non-negative (a negative bound renders with a `-` sign the grammar cannot
express). -/
def goodSub (sr : Subrange) : Prop :=
  (sr.start ≠ none ∨ sr.end' ≠ none) ∧
    (∀ i, sr.start = some i → 0 ≤ i) ∧ (∀ i, sr.end' = some i → 0 ≤ i)

/-!
Embedding of `Range.trim` and `compute_next_range` (`models/range.py`).
-/

/-- Occurrence test: does `pat` occur in `t` starting at index `i`? -/
def occursAtB (pat t : List Char) (i : Nat) : Bool :=
  (t.drop i).take pat.length = pat

/-- Rightmost occurrence of `pat` in `t` at an index ≤ `i`.  Python
`str.rindex` returns the highest index of an occurrence and raises
`ValueError` when there is none (`none` here). -/
def rindexAux (pat t : List Char) : Nat → Option Nat
  | 0 => if occursAtB pat t 0 then some 0 else none
  | i + 1 => if occursAtB pat t (i + 1) then some (i + 1) else rindexAux pat t i

/-- Embeds `text.rindex(pat)`. -/
def rindexOpt (t pat : List Char) : Option Nat :=
  rindexAux pat t t.length

/-- Python list indexing `l[i]`, including negative indices counting from
the end; `none` models the raised `IndexError`. -/
def pyIndex {α : Type} (l : List α) (i : Int) : Option α :=
  if 0 ≤ i then l.get? i.toNat
  else if 0 ≤ (l.length : Int) + i then l.get? ((l.length : Int) + i).toNat
  else none

/-- Embeds `Range.trim` (`models/range.py`, lines 158-170): assert a single
subrange; chunk `text` (with `keep_fragments` defaulted to true); when the
chunk count exceeds the slice's `stop`, cut `text` at the rightmost
occurrence of the chunk indexed by `stop`.  `Except`-errors model the
failed `assert`, the `TypeError` of comparing `len(chunks)` with a `None`
stop, the `IndexError` of `chunks[stop]` and the `ValueError` of
`text.rindex`. -/
def rangeTrim (ch : Chunk) (r : Range) (text : List Char) :
    Except Unit (List Char) :=
  match r.ranges with
  | [sr] =>
      let seg := sr.get_slice
      let chunks := ch r.unit true text
      match seg.stop with
      | none => Except.error ()
      | some stopV =>
          if stopV < (chunks.length : Int) then
            match pyIndex chunks stopV with
            | none => Except.error ()
            | some chk =>
                match rindexOpt text chk with
                | none => Except.error ()
                | some p => Except.ok (text.take p)
          else Except.ok text
  | _ => Except.error ()

/-- Embeds `compute_next_range` (`models/range.py`, lines 210-229).  The
`Except`-error models the failed `assert chunk_size > 0`.  Note the source
computes `end = start + remaining - 1` (not `start + size - 1`) in the
branch where both are equal, and appends no subrange at all when `text` is
already longer than `max_length`. -/
def computeNextRange (ch : Chunk) (text : List Char) (units : RangeUnits)
    (maxLength chunkSize : Int) : Except Unit Range :=
  if chunkSize ≤ 0 then Except.error ()
  else
    let textLen : Int := ((ch units false text).length : Int)
    let remaining := maxLength - textLen
    if 0 < remaining then
      let size := min remaining chunkSize
      if size = remaining then
        Except.ok ⟨units, [⟨some textLen, some (textLen + remaining - 1)⟩]⟩
      else Except.ok ⟨units, [⟨none, some size⟩]⟩
    else if remaining = 0 then
      Except.ok ⟨units, [⟨some textLen, some textLen⟩]⟩
    else Except.ok ⟨units, []⟩

/-!
Embedding of `CharacterEntryFigmentator` (`figment/base.py`).  The abstract
`process` and `sample` methods are parameters (`proc`, `sampleFn`), as is
the profanity filter (`profan`, verified separately below).  Python raising
is modeled with `Except Unit`.
-/

/-- Truthiness of an optional string (Python `if not s`): falsy when
`None` or empty. -/
def strFalsy (s : Option (List Char)) : Bool :=
  match s with
  | none => true
  | some [] => true
  | some (_ :: _) => false

/-- Embeds `CharacterEntryFigmentator.validate` (`figment/base.py`, lines
94-127).  Returned on success: the context with its description
normalized (`if not entry.description: entry.description = ""`), and the
validated slice or `none` for each of the rejection branches (no range,
more than one subrange, falsy slice `stop` — `if not text_range.stop`
rejects a `None` stop and an integer stop equal to `0` alike — or a
`start` that differs from the chunked length of the current description
with fragments dropped).  The `Except`-error models the `IndexError` of
`context.range.slices[0]` when the subrange list is empty. -/
def validateCtx (ch : Chunk) (ctx : FigmentContext) :
    Except Unit (FigmentContext × Option PySlice) :=
  let desc : List Char := ctx.entry.description.getD []
  let ctx1 : FigmentContext := { ctx with entry := ⟨some desc⟩ }
  match ctx.range with
  | none => Except.ok (ctx1, none)
  | some r =>
      if 1 < r.ranges.length then Except.ok (ctx1, none)
      else
        match r.ranges with
        | [] => Except.error ()
        | sr :: _ =>
            let tr := sr.get_slice
            if tr.stop = none ∨ tr.stop = some 0 then Except.ok (ctx1, none)
            else
              let index : Nat := (ch r.unit false desc).length
              match tr.start with
              | some st =>
                  if st ≠ (index : Int) then Except.ok (ctx1, none)
                  else Except.ok (ctx1, some tr)
              | none => Except.ok (ctx1, some tr)

/-- First loop of `CharacterEntryFigmentator.figmentate` (lines 136-150):
validate and preprocess every context, marking failures, and collect the
segments and processed entries of the surviving contexts in order. -/
def firstLoop {P : Type} (ch : Chunk) (proc : FigmentContext → Option P) :
    List FigmentContext →
    Except Unit (List FigmentContext × List PySlice × List P)
  | [] => Except.ok ([], [], [])
  | ctx :: rest =>
      match validateCtx ch ctx with
      | Except.error e => Except.error e
      | Except.ok (ctx1, none) =>
          (firstLoop ch proc rest).map
            (fun out => ({ ctx1 with status := FigmentStatus.failed } :: out.1,
              out.2.1, out.2.2))
      | Except.ok (ctx1, some seg) =>
          match proc ctx1 with
          | none =>
              (firstLoop ch proc rest).map
                (fun out => ({ ctx1 with status := FigmentStatus.failed } :: out.1,
                  out.2.1, out.2.2))
          | some p =>
              (firstLoop ch proc rest).map
                (fun out => (ctx1 :: out.1, seg :: out.2.1, p :: out.2.2))

/-- Status-and-description update of the sample-consuming loop body
(`figment/base.py`, lines 172-179): append the sample to the description,
chunk the result (with fragments kept) and mark the context `completed`
when the range is finite and the chunk count exceeds the slice's stop,
else `partialStatus`. -/
def applySample (ch : Chunk) (r : Range) (desc sample : List Char)
    (stopV : Int) : FigmentStatus × List Char :=
  let desc' := desc ++ sample
  let chunks := ch r.unit true desc'
  (if r.is_finite ∧ stopV < (chunks.length : Int) then FigmentStatus.completed
    else FigmentStatus.partialStatus, desc')

/-- Second loop of `CharacterEntryFigmentator.figmentate` (lines 152-179):
walk the contexts, skipping failed ones, consuming one filtered sample and
one segment per survivor.  `Except`-errors model the `StopIteration` of an
exhausted iterator, the two failed asserts, and the `TypeError` of
comparing `len(chunks)` with a `None` stop. -/
def secondLoop (ch : Chunk) :
    List FigmentContext → List (Option (List Char)) → List PySlice →
    Except Unit (List FigmentContext)
  | [], _, _ => Except.ok []
  | ctx :: rest, samples, segments =>
      if ctx.status = FigmentStatus.failed then
        (secondLoop ch rest samples segments).map (ctx :: ·)
      else
        match samples, segments with
        | [], _ => Except.error ()
        | _, [] => Except.error ()
        | s :: samples', seg :: segments' =>
            if strFalsy s then
              (secondLoop ch rest samples' segments').map
                (fun l => { ctx with status := FigmentStatus.failed } :: l)
            else
              match s, ctx.range, ctx.entry.description with
              | some sl, some r, some d =>
                  match seg.stop with
                  | none => Except.error ()
                  | some stopV =>
                      let out := applySample ch r d sl stopV
                      (secondLoop ch rest samples' segments').map
                        (fun l =>
                          { ctx with
                            status := out.1
                            entry := ⟨some out.2⟩ } :: l)
              | _, _, _ => Except.error ()

/-- Embeds `CharacterEntryFigmentator.figmentate` (`figment/base.py`, lines
129-181): first loop, then one batched `sample` call whose outputs pass
through the profanity filter (`filter(s) if s else None`), then the
second loop. -/
def figmentate {P : Type} (ch : Chunk) (proc : FigmentContext → Option P)
    (sampleFn : List P → List (Option (List Char)))
    (profan : List Char → List Char) (contexts : List FigmentContext) :
    Except Unit (List FigmentContext) :=
  match firstLoop ch proc contexts with
  | Except.error e => Except.error e
  | Except.ok (cs, segs, ps) =>
      let samples := (sampleFn ps).map
        (fun s => if strFalsy s then none else s.map profan)
      secondLoop ch cs samples segs

/-!
Embedding of `Profanity.filter` (`utils/profanity.py`, lines 57-61):
`self.regex.sub(lambda x: "*" * len(x.group(0)), text)`.  The compiled
regex is data built from the word list and homoglyph map; what `re.sub`
consumes from it is the sequence of non-overlapping, left-to-right matches.
That sequence is abstracted as a list of `(gap, len)` pairs: `gap`
characters are kept, then a match of `len` characters is replaced by
`'*' * len`, and scanning resumes after it. -/

/-- Embeds `re.sub` with the replacement lambda of `Profanity.filter`:
each matched span is replaced by a star run of the same length. -/
def subStars : List Char → List (Nat × Nat) → List Char
  | t, [] => t
  | t, (g, l) :: rest =>
      t.take g ++ List.replicate l '*' ++ subStars (t.drop (g + l)) rest

/-- Well-formedness of a match-span list against a text length: every span
lies inside the text (what a real regex engine's match sequence
satisfies). -/
def spansWF : Nat → List (Nat × Nat) → Prop
  | _, [] => True
  | n, (g, l) :: rest => g + l ≤ n ∧ spansWF (n - (g + l)) rest

/-- Membership of an absolute position in one of the matched spans, in the
same relative encoding as `subStars`. -/
def coveredBy : List (Nat × Nat) → Nat → Prop
  | [], _ => False
  | (g, l) :: rest, i =>
      (g ≤ i ∧ i < g + l) ∨ (g + l ≤ i ∧ coveredBy rest (i - (g + l)))

/-- Decidability of span membership, by the same recursion. -/
def coveredByDec : (ms : List (Nat × Nat)) → (i : Nat) → Decidable (coveredBy ms i)
  | [], _ => isFalse (fun h => h)
  | (g, l) :: rest, i =>
      haveI := coveredByDec rest (i - (g + l))
      inferInstanceAs (Decidable ((g ≤ i ∧ i < g + l) ∨
        (g + l ≤ i ∧ coveredBy rest (i - (g + l)))))

instance (ms : List (Nat × Nat)) (i : Nat) : Decidable (coveredBy ms i) :=
  coveredByDec ms i

/-- Reference form of the filter output, written directly from the spec's
words: each position covered by a match becomes `'*'`, text outside
matches is unchanged.  Used to state that `subStars` is length-preserving
and touches only matched spans. -/
def starSpec (t : List Char) (ms : List (Nat × Nat)) : List Char :=
  (List.range t.length).map
    (fun i => if coveredBy ms i then '*' else t.getD i '*')

/-!
Theorems.
-/

/-- Helper: the batch accumulator never grows past `maxBatch`. -/
theorem formBatchGo_length_le {I : Type} (maxBatch : Nat) :
    ∀ (arrivals : List (Option I)) (acc : List I),
      acc.length ≤ maxBatch → (formBatchGo maxBatch acc arrivals).length ≤ maxBatch := by
  intro arrivals
  induction arrivals with
  | nil => intro acc h; simpa [formBatchGo] using h
  | cons a rest ih =>
      intro acc h
      by_cases hlt : acc.length < maxBatch
      · cases a with
        | none => simpa [formBatchGo, hlt] using h
        | some i =>
            have : (acc ++ [i]).length ≤ maxBatch := by
              simpa using Nat.succ_le_of_lt hlt
            simpa [formBatchGo, hlt] using ih (acc ++ [i]) this
      · simpa [formBatchGo, hlt] using h

/-- C3: for every configuration with `max_batch_size ≥ 1` and every arrival
pattern, the batch a worker of `FigmentScheduler.main_loop` dispatches —
one blocking take followed by accumulation, stopping at a timeout — never
holds more than `max_batch_size` items. -/
theorem c3_batch_size_bound {I : Type} (maxBatch : Nat) (hmax : 1 ≤ maxBatch)
    (first : I) (arrivals : List (Option I)) :
    (formBatch maxBatch first arrivals).length ≤ maxBatch :=
  formBatchGo_length_le maxBatch arrivals [first] (by simpa using hmax)

/-- Witness for C3 at a concrete configuration and arrival pattern. -/
theorem c3_batch_size_bound_witness :
    (formBatch 2 (0 : Nat) [some 1, some 2, some 3]).length ≤ 2 :=
  c3_batch_size_bound 2 (by decide) 0 [some 1, some 2, some 3]

/-- Counterexample to C1 as stated: when `figmentate` returns a result list
shorter than the batch (here 1 result for a 2-element batch),
`FigmentatorResource.process` iterates `zip(futures, results)`, so the
second future is never resolved (`none`) and only one `task_done` is
issued — not one per enqueued pair. -/
theorem c1_zip_drops_requests :
    ¬ ((∀ x ∈ (processRes (F := Unit) (R := Nat) (E := Unit) ⟨true, 0, 0⟩
          [(), ()] (Except.ok [42])).2.1, x ≠ none) ∧
        (processRes (F := Unit) (R := Nat) (E := Unit) ⟨true, 0, 0⟩
          [(), ()] (Except.ok [42])).2.2 = 2) := by
  intro h
  exact absurd (h.1 none (by simp [processRes, resolveOk])) (by simp)

/-- C1 (amended): for every batch, *provided* `figmentate` raises or
returns at least as many results as there are enqueued pairs, every
completion handle is resolved exactly once — its slot in the disposition
list is filled, and each handle has exactly one slot — and exactly one
`task_done` is issued per pair. -/
theorem c1_exactly_once {F R E : Type} (s : ResState) (futures : List F)
    (outcome : Except E (List R))
    (h : ∀ results, outcome = Except.ok results →
      futures.length ≤ results.length) :
    (∀ x ∈ (processRes s futures outcome).2.1, x ≠ none) ∧
    (processRes s futures outcome).2.1.length = futures.length ∧
    (processRes s futures outcome).2.2 = futures.length := by
  cases outcome with
  | ok results =>
      have hlen : futures.length ≤ results.length := h results rfl
      refine ⟨?_, ?_, ?_⟩
      · intro x hx
        simp only [processRes, resolveOk] at hx
        rcases List.mem_append.1 hx with hx | hx
        · rcases List.mem_map.1 hx with ⟨r, _, rfl⟩
          simp
        · have : futures.length - results.length = 0 := Nat.sub_eq_zero_of_le hlen
          simp [this] at hx
      · simp only [processRes, resolveOk]
        have : futures.length - results.length = 0 := Nat.sub_eq_zero_of_le hlen
        simp [this, Nat.min_eq_left hlen]
      · simp [processRes, Nat.min_eq_left hlen]
  | error e =>
      refine ⟨?_, by simp [processRes], by simp [processRes]⟩
      intro x hx
      simp only [processRes] at hx
      rcases List.mem_map.1 hx with ⟨r, _, rfl⟩
      simp

/-- Witness for C1 (amended) on a concrete 2-element batch with 2 results. -/
theorem c1_exactly_once_witness :
    (∀ x ∈ (processRes (F := Unit) (R := Nat) (E := Unit) ⟨true, 0, 0⟩
        [(), ()] (Except.ok [1, 2])).2.1, x ≠ none) ∧
    (processRes (F := Unit) (R := Nat) (E := Unit) ⟨true, 0, 0⟩
      [(), ()] (Except.ok [1, 2])).2.1.length = 2 ∧
    (processRes (F := Unit) (R := Nat) (E := Unit) ⟨true, 0, 0⟩
      [(), ()] (Except.ok [1, 2])).2.2 = 2 :=
  c1_exactly_once ⟨true, 0, 0⟩ [(), ()] (Except.ok [1, 2])
    (fun results hr => by cases hr; decide)

/-- C2: if `figmentate` raises, `FigmentatorResource.process` sets that
same exception on every handle of the batch, issues one `task_done` per
batch element and clears `ready`; and `__aexit__` of the last in-scope
user, with `ready` still cleared, performs `renew` (release then acquire:
a fresh generation with `ready` set again), so a model-level exception
fails only the in-flight batch. -/
theorem c2_exception_fails_batch_and_renews {F R E : Type} (s : ResState)
    (futures : List F) (e : E) (t : ResState)
    (hready : t.ready = false) (hcount : t.count = 1) :
    (∀ x ∈ (processRes (R := R) s futures (Except.error e)).2.1,
      x = some (Except.error e)) ∧
    (processRes (R := R) s futures (Except.error e)).2.1.length =
      futures.length ∧
    (processRes (R := R) s futures (Except.error e)).2.2 = futures.length ∧
    (processRes (R := R) s futures (Except.error e)).1.ready = false ∧
    t.aexit = ResState.renew { t with count := 0 } ∧
    t.aexit.ready = true ∧ t.aexit.generation = t.generation + 1 := by
  refine ⟨?_, by simp [processRes], by simp [processRes],
    by simp [processRes], ?_, ?_, ?_⟩
  · intro x hx
    simp only [processRes] at hx
    rcases List.mem_map.1 hx with ⟨r, _, rfl⟩
    rfl
  · simp [ResState.aexit, hready, hcount]
  · simp [ResState.aexit, ResState.renew, ResState.release, ResState.acquire,
      hready, hcount]
  · simp [ResState.aexit, ResState.renew, ResState.release, ResState.acquire,
      hready, hcount]

/-- Witness for C2 on a concrete 2-element batch and a drained resource
state. -/
theorem c2_exception_fails_batch_and_renews_witness :
    (∀ x ∈ (processRes (F := Unit) (R := Nat) (E := Unit) ⟨true, 2, 5⟩
        [(), ()] (Except.error ())).2.1, x = some (Except.error ())) ∧
    (processRes (F := Unit) (R := Nat) (E := Unit) ⟨true, 2, 5⟩
      [(), ()] (Except.error ())).2.1.length = 2 ∧
    (processRes (F := Unit) (R := Nat) (E := Unit) ⟨true, 2, 5⟩
      [(), ()] (Except.error ())).2.2 = 2 ∧
    (processRes (F := Unit) (R := Nat) (E := Unit) ⟨true, 2, 5⟩
      [(), ()] (Except.error ())).1.ready = false ∧
    (⟨false, 1, 5⟩ : ResState).aexit = ResState.renew ⟨false, 0, 5⟩ ∧
    (⟨false, 1, 5⟩ : ResState).aexit.ready = true ∧
    (⟨false, 1, 5⟩ : ResState).aexit.generation = 5 + 1 :=
  c2_exception_fails_batch_and_renews ⟨true, 2, 5⟩ [(), ()] () ⟨false, 1, 5⟩
    rfl rfl

/-- Helper: mapping positional `getD` over an initial range recovers a
`take`. -/
theorem map_getD_range_eq_take (t : List Char) (n : Nat) (d : Char)
    (h : n ≤ t.length) :
    (List.range n).map (fun i => t.getD i d) = t.take n := by
  apply List.ext_getElem
  · simp [Nat.min_eq_left h]
  · intro i h1 h2
    simp only [List.getElem_map, List.getElem_range, List.getElem_take]
    have hi : i < t.length := lt_of_lt_of_le (by simpa using h1) h
    simp [List.getD_eq_getElem, hi]

/-- Helper: `getD` after a `drop` reads at a shifted position. -/
theorem getD_drop_eq (t : List Char) (n i : Nat) (d : Char) :
    (t.drop n).getD i d = t.getD (n + i) d := by
  simp [List.getD_eq_getElem?_getD, List.getElem?_drop]

/-- Helper: one step of the `starSpec` reference form splits as the kept
gap, the star run, and the reference form of the remainder. -/
theorem starSpec_cons (t : List Char) (g l : Nat) (ms : List (Nat × Nat))
    (h : g + l ≤ t.length) :
    starSpec t ((g, l) :: ms) =
      t.take g ++ List.replicate l '*' ++ starSpec (t.drop (g + l)) ms := by
  have hsplit : t.length = (g + l) + (t.length - (g + l)) := by omega
  rw [starSpec, hsplit, List.range_add, List.map_append, List.range_add,
    List.map_append, List.map_map, List.map_map]
  congr 1
  · congr 1
    · rw [← map_getD_range_eq_take t g '*' (by omega)]
      apply List.map_congr_left
      intro i hi
      have hig : i < g := List.mem_range.1 hi
      have hnc : ¬ coveredBy ((g, l) :: ms) i := by
        simp only [coveredBy]
        omega
      simp [hnc]
    · have : ∀ i ∈ List.range l, coveredBy ((g, l) :: ms) (g + i) := by
        intro i hi
        have : i < l := List.mem_range.1 hi
        simp only [coveredBy]
        omega
      calc (List.range l).map
            ((fun i => if coveredBy ((g, l) :: ms) i then '*' else t.getD i '*') ∘
              (fun x => g + x))
          = (List.range l).map (fun _ => '*') := by
            apply List.map_congr_left
            intro i hi
            simp [this i hi]
        _ = List.replicate l '*' := by
            simp [List.map_const']
  · rw [starSpec, List.length_drop]
    apply List.map_congr_left
    intro i hi
    have hcov : coveredBy ((g, l) :: ms) ((g + l) + i) ↔ coveredBy ms i := by
      simp only [coveredBy]
      constructor
      · rintro (h1 | h2)
        · omega
        · have : (g + l) + i - (g + l) = i := by omega
          rw [this] at h2
          exact h2.2
      · intro hm
        right
        refine ⟨by omega, ?_⟩
        have : (g + l) + i - (g + l) = i := by omega
        rw [this]
        exact hm
    by_cases hc : coveredBy ms i
    · simp [Function.comp, hcov, hc]
    · simp [Function.comp, hcov, hc, getD_drop_eq]

/-- C9: on every text and every sequence of in-bounds, non-overlapping
match spans, `Profanity.filter`'s substitution (`subStars`) equals the
spec's description (`starSpec`): every match is replaced by a star run
exactly as long as the matched text, positions outside matches are
unchanged — and hence the output has the same length as the input. -/
theorem c9_filter_masks_and_preserves_length :
    ∀ (ms : List (Nat × Nat)) (t : List Char), spansWF t.length ms →
      subStars t ms = starSpec t ms ∧ (subStars t ms).length = t.length := by
  intro ms
  induction ms with
  | nil =>
      intro t _
      constructor
      · rw [subStars, starSpec]
        have := map_getD_range_eq_take t t.length '*' le_rfl
        rw [show (fun i => if coveredBy [] i then '*' else t.getD i '*') =
          fun i => t.getD i '*' from by funext i; simp [coveredBy], this,
          List.take_length]
      · rfl
  | cons gl rest ih =>
      rintro t ⟨hfit, hwf⟩
      obtain ⟨g, l⟩ := gl
      have hdrop : (t.drop (g + l)).length = t.length - (g + l) := by simp
      have ihr := ih (t.drop (g + l)) (by rw [hdrop]; exact hwf)
      constructor
      · rw [subStars, starSpec_cons t g l rest hfit, ihr.1]
      · rw [subStars]
        simp only [List.length_append, List.length_take, List.length_replicate,
          ihr.2, hdrop]
        omega

/-- Witness for C9 on a concrete text and span list. -/
theorem c9_filter_masks_and_preserves_length_witness :
    subStars ['d', 'a', 'm', 'n', ' ', 'i', 't'] [(0, 4)] =
        starSpec ['d', 'a', 'm', 'n', ' ', 'i', 't'] [(0, 4)] ∧
      (subStars ['d', 'a', 'm', 'n', ' ', 'i', 't'] [(0, 4)]).length =
        (['d', 'a', 'm', 'n', ' ', 'i', 't'] : List Char).length :=
  c9_filter_masks_and_preserves_length [(0, 4)]
    ['d', 'a', 'm', 'n', ' ', 'i', 't'] ⟨by decide, trivial⟩

/-- Counterexample to C7 as stated: with one chunk of text already present
(`tokens` chunker on `"a"`) and `max_length = chunk_size = 1`, the chunked
length equals `max_length`, yet `compute_next_range` returns
`Subrange(start=1, end=1)` whose slice is `[1, 2)` — a request of length
one (both bounds are inclusive in this data model) that reaches past
`max_length`, not the zero-length subrange the claim states. -/
theorem c7_equal_length_is_not_zero_length :
    computeNextRange splitChunk ['a'] RangeUnits.tokens 1 1 =
        Except.ok ⟨RangeUnits.tokens, [⟨some 1, some 1⟩]⟩ ∧
      Subrange.get_slice ⟨some 1, some 1⟩ = ⟨some 1, some 2⟩ ∧
      ((2 : Int) ≠ (1 : Int)) ∧ ¬ ((2 : Int) ≤ (1 : Int)) :=
  ⟨rfl, rfl, by decide, by decide⟩

/-- C7 (amended): for `chunk_size > 0` and chunked text length `tl`,
`compute_next_range` never raises and returns: for `tl < max_length`, a
single subrange bounded by `max_length` whose slice requests at most
`chunk_size` chunks — `[tl, max_length)` when the remainder fits in
`chunk_size`, else the open-left `[0, chunk_size)`; for `tl = max_length`,
the one-chunk subrange `Subrange(tl, tl)` at the current offset (slice
`[tl, tl+1)`, not zero-length); and for `tl > max_length`, an empty
subrange list. -/
theorem c7_next_range (ch : Chunk) (text : List Char) (u : RangeUnits)
    (maxL cs tl : Int) (hcs : 0 < cs)
    (htl : tl = ((ch u false text).length : Int)) :
    ∃ r : Range,
      computeNextRange ch text u maxL cs = Except.ok r ∧ r.unit = u ∧
      (tl < maxL → maxL - tl ≤ cs → r.ranges = [⟨some tl, some (maxL - 1)⟩]) ∧
      (tl < maxL → cs < maxL - tl → r.ranges = [⟨none, some cs⟩]) ∧
      (tl = maxL → r.ranges = [⟨some tl, some tl⟩]) ∧
      (maxL < tl → r.ranges = []) ∧
      (tl < maxL → ∀ sr ∈ r.ranges, ∃ v, sr.get_slice.stop = some v ∧
        v ≤ maxL ∧ v - sr.get_slice.start.getD 0 ≤ cs) := by
  subst htl
  simp only [computeNextRange]
  set N : Int := ((ch u false text).length : Int) with hN
  have hN0 : 0 ≤ N := hN ▸ Int.natCast_nonneg _
  rw [if_neg (by omega : ¬ cs ≤ 0)]
  by_cases h1 : 0 < maxL - N
  · by_cases h2 : maxL - N ≤ cs
    · have hmin : min (maxL - N) cs = maxL - N := min_eq_left h2
      rw [if_pos h1, if_pos hmin]
      refine ⟨_, rfl, rfl, ?_, ?_, ?_, ?_, ?_⟩
      · intro _ _
        have he : N + (maxL - N) - 1 = maxL - 1 := by omega
        rw [he]
      · intro _ h; exfalso; omega
      · intro h; exfalso; omega
      · intro h; exfalso; omega
      · intro _ sr hsr
        rw [List.mem_singleton] at hsr
        subst hsr
        refine ⟨maxL, ?_, le_rfl, ?_⟩
        · simp only [Subrange.get_slice]
          rw [if_neg (by simp)]
          simp only [Option.map_some']
          congr 1
          omega
        · simp only [Subrange.get_slice, Option.getD_some]
          omega
    · have hlt : cs < maxL - N := by
        by_contra hc
        push_neg at hc
        exact h2 hc
      have hmin : min (maxL - N) cs = cs := min_eq_right (le_of_lt hlt)
      rw [if_pos h1,
        if_neg (show ¬ min (maxL - N) cs = maxL - N by rw [hmin]; omega)]
      refine ⟨_, rfl, rfl, ?_, ?_, ?_, ?_, ?_⟩
      · intro _ h; exfalso; omega
      · intro _ _; rw [hmin]
      · intro h; exfalso; omega
      · intro h; exfalso; omega
      · intro _ sr hsr
        rw [List.mem_singleton] at hsr
        subst hsr
        refine ⟨cs, ?_, by omega, ?_⟩
        · simp [Subrange.get_slice, hmin]
        · simp only [Subrange.get_slice, Option.getD_none]
          omega
  · rw [if_neg h1]
    by_cases h0 : maxL - N = 0
    · rw [if_pos h0]
      refine ⟨_, rfl, rfl, ?_, ?_, ?_, ?_, ?_⟩
      · intro h _; exfalso; omega
      · intro h _; exfalso; omega
      · intro _; rfl
      · intro h; exfalso; omega
      · intro h; exfalso; omega
    · rw [if_neg h0]
      refine ⟨_, rfl, rfl, ?_, ?_, ?_, ?_, ?_⟩
      · intro h _; exfalso; omega
      · intro h _; exfalso; omega
      · intro h; exfalso; omega
      · intro _; rfl
      · intro h; exfalso; omega

/-- Witness for C7 (amended) with the `tokens` chunker on `"a"`,
`max_length = 3`, `chunk_size = 1`: an open-left subrange of one chunk. -/
theorem c7_next_range_witness :
    ∃ r : Range,
      computeNextRange splitChunk ['a'] RangeUnits.tokens 3 1 =
        Except.ok r ∧ r.unit = RangeUnits.tokens ∧
      ((1 : Int) < 3 → (3 : Int) - 1 ≤ 1 → r.ranges = [⟨some 1, some (3 - 1)⟩]) ∧
      ((1 : Int) < 3 → (1 : Int) < 3 - 1 → r.ranges = [⟨none, some 1⟩]) ∧
      ((1 : Int) = 3 → r.ranges = [⟨some 1, some 1⟩]) ∧
      ((3 : Int) < 1 → r.ranges = []) ∧
      ((1 : Int) < 3 → ∀ sr ∈ r.ranges, ∃ v, sr.get_slice.stop = some v ∧
        v ≤ 3 ∧ v - sr.get_slice.start.getD 0 ≤ 1) :=
  c7_next_range splitChunk ['a'] RangeUnits.tokens 3 1 1 (by decide) rfl

/-- Counterexample to C6 as stated: for a context whose single subrange is
`Subrange(start=None, end=0)`, none of the claim's four rejection
conditions holds — a range is present, it has one subrange, its end is
present (`0`), and its start is absent — yet `validate` rejects (returns
`None`), because the computed slice stop is the integer `0` and
`if not text_range.stop` treats `0` as falsy. -/
theorem c6_end_zero_is_rejected :
    validateCtx splitChunk
        ⟨FigmentStatus.pending, some ⟨RangeUnits.tokens, [⟨none, some 0⟩]⟩,
          ⟨some []⟩⟩ =
      Except.ok
        (⟨FigmentStatus.pending, some ⟨RangeUnits.tokens, [⟨none, some 0⟩]⟩,
          ⟨some []⟩⟩, none) ∧
    (⟨none, some 0⟩ : Subrange).end' = some 0 ∧
    (⟨none, some 0⟩ : Subrange).start = none :=
  ⟨rfl, rfl, rfl⟩

/-- C6 (amended): for every context whose range, when present, has a
non-empty subrange list (an empty list raises `IndexError` instead — see
C10), `CharacterEntryFigmentator.validate` returns `None` if and only if:
the context has no range; or the range has more than one subrange; or the
computed slice stop is falsy — the end is missing, or the stop equals the
integer `0` (e.g. `end=0` with start missing, or `end=-1` with start
present); or the start is present and differs from the chunked length of
the current description.  In every other case it returns the first
subrange's slice. -/
theorem c6_validate_characterization (ch : Chunk) (ctx : FigmentContext)
    (desc : List Char) (hdesc : desc = ctx.entry.description.getD [])
    (ctx1 : FigmentContext) (hctx1 : ctx1 = { ctx with entry := ⟨some desc⟩ })
    (hne : ∀ r, ctx.range = some r → r.ranges ≠ []) :
    (validateCtx ch ctx = Except.ok (ctx1, none) ↔
      (ctx.range = none ∨
        ∃ r, ctx.range = some r ∧
          (1 < r.ranges.length ∨
            ∃ sr rest, r.ranges = sr :: rest ∧
              (sr.get_slice.stop = none ∨ sr.get_slice.stop = some 0 ∨
                ∃ st, sr.get_slice.start = some st ∧
                  st ≠ ((ch r.unit false desc).length : Int))))) ∧
    (∀ r sr rest, ctx.range = some r → r.ranges = sr :: rest →
      r.ranges.length ≤ 1 →
      sr.get_slice.stop ≠ none → sr.get_slice.stop ≠ some 0 →
      (∀ st, sr.get_slice.start = some st →
        st = ((ch r.unit false desc).length : Int)) →
      validateCtx ch ctx = Except.ok (ctx1, some sr.get_slice)) := by
  subst hdesc
  subst hctx1
  obtain ⟨cst, crange, centry⟩ := ctx
  cases crange with
  | none =>
      refine ⟨⟨fun _ => Or.inl rfl, fun _ => rfl⟩, ?_⟩
      intro r sr rest hr
      exact absurd hr (by simp)
  | some r =>
      obtain ⟨runit, rranges⟩ := r
      have hne' := hne ⟨runit, rranges⟩ rfl
      simp only at hne'
      cases rranges with
      | nil => exact absurd rfl hne'
      | cons sr rest =>
          by_cases hlen : 1 < (sr :: rest).length
          · refine ⟨⟨fun _ => Or.inr ⟨_, rfl, Or.inl hlen⟩, fun _ => ?_⟩, ?_⟩
            · simp only [validateCtx]
              rw [if_pos hlen]
            · intro r' sr' rest' hr' hrr' hle
              cases hr'
              exfalso
              dsimp only at hle
              omega
          · have hrest : rest = [] := by
              simp only [List.length_cons] at hlen
              have : rest.length = 0 := by omega
              exact List.length_eq_zero.1 this
            subst hrest
            by_cases hstop : sr.get_slice.stop = none ∨ sr.get_slice.stop = some 0
            · refine ⟨⟨fun _ => Or.inr ⟨_, rfl, Or.inr ⟨sr, [], rfl,
                hstop.imp_right Or.inl⟩⟩, fun _ => ?_⟩, ?_⟩
              · simp only [validateCtx, Except.ok.injEq]
                rw [if_neg hlen, if_pos hstop]
              · intro r' sr' rest' hr' hrr' _ hn h0 _
                cases hr'
                simp only [List.cons.injEq] at hrr'
                rcases hstop with h | h
                · exact absurd (hrr'.1 ▸ h) hn
                · exact absurd (hrr'.1 ▸ h) h0
            · have hstopn : sr.get_slice.stop ≠ none := fun h => hstop (Or.inl h)
              have hstop0 : sr.get_slice.stop ≠ some 0 := fun h => hstop (Or.inr h)
              cases hstart : sr.get_slice.start with
              | none =>
                  refine ⟨⟨fun hval => ?_, fun hrej => ?_⟩, ?_⟩
                  · exfalso
                    simp only [validateCtx] at hval
                    rw [if_neg hlen, if_neg hstop] at hval
                    rw [hstart] at hval
                    simp at hval
                  · exfalso
                    rcases hrej with h | ⟨r', hr', h | ⟨sr', rest', hrr', h⟩⟩
                    · exact absurd h (by simp)
                    · cases hr'
                      exact absurd h (by simp)
                    · cases hr'
                      simp only [List.cons.injEq] at hrr'
                      rcases h with h | h | ⟨st, hst, _⟩
                      · exact absurd (hrr'.1 ▸ h) hstopn
                      · exact absurd (hrr'.1 ▸ h) hstop0
                      · rw [hrr'.1] at hstart
                        rw [hstart] at hst
                        exact absurd hst (by simp)
                  · intro r' sr' rest' hr' hrr' _ _ _ _
                    cases hr'
                    simp only [List.cons.injEq] at hrr'
                    rw [← hrr'.1]
                    simp only [validateCtx, Except.ok.injEq]
                    rw [if_neg hlen, if_neg hstop]
                    rw [hstart]
              | some st =>
                  by_cases hmis :
                      st = ((ch runit false (centry.description.getD [])).length : Int)
                  · refine ⟨⟨fun hval => ?_, fun hrej => ?_⟩, ?_⟩
                    · exfalso
                      simp only [validateCtx] at hval
                      rw [if_neg hlen, if_neg hstop] at hval
                      rw [hstart] at hval
                      simp [hmis] at hval
                    · exfalso
                      rcases hrej with h | ⟨r', hr', h | ⟨sr', rest', hrr', h⟩⟩
                      · exact absurd h (by simp)
                      · cases hr'
                        exact absurd h (by simp)
                      · cases hr'
                        simp only [List.cons.injEq] at hrr'
                        rcases h with h | h | ⟨st', hst', hne''⟩
                        · exact absurd (hrr'.1 ▸ h) hstopn
                        · exact absurd (hrr'.1 ▸ h) hstop0
                        · rw [hrr'.1] at hstart
                          rw [hstart] at hst'
                          simp only [Option.some.injEq] at hst'
                          exact hne'' (hst' ▸ hmis)
                    · intro r' sr' rest' hr' hrr' _ _ _ _
                      cases hr'
                      simp only [List.cons.injEq] at hrr'
                      rw [← hrr'.1]
                      simp only [validateCtx]
                      rw [if_neg hlen, if_neg hstop]
                      rw [hstart]
                      simp [hmis]
                  · refine ⟨⟨fun _ => Or.inr ⟨_, rfl, Or.inr ⟨sr, [], rfl,
                      Or.inr (Or.inr ⟨st, hstart, hmis⟩)⟩⟩, fun _ => ?_⟩, ?_⟩
                    · simp only [validateCtx]
                      rw [if_neg hlen, if_neg hstop]
                      rw [hstart]
                      simp [hmis]
                    · intro r' sr' rest' hr' hrr' _ _ _ hall
                      cases hr'
                      simp only [List.cons.injEq] at hrr'
                      exact absurd (hall st (hrr'.1 ▸ hstart)) hmis

/-- Witness for C6 (amended) on a concrete accepted context: range
`tokens=0-1` over an empty description validates to the slice `[0, 2)`. -/
theorem c6_validate_characterization_witness :
    (validateCtx splitChunk
        ⟨FigmentStatus.pending, some ⟨RangeUnits.tokens, [⟨some 0, some 1⟩]⟩,
          ⟨some []⟩⟩ =
      Except.ok
        (⟨FigmentStatus.pending, some ⟨RangeUnits.tokens, [⟨some 0, some 1⟩]⟩,
          ⟨some []⟩⟩, none) ↔
      ((some ⟨RangeUnits.tokens, [⟨some 0, some 1⟩]⟩ : Option Range) = none ∨
        ∃ r, (some ⟨RangeUnits.tokens, [⟨some 0, some 1⟩]⟩ : Option Range) =
            some r ∧
          (1 < r.ranges.length ∨
            ∃ sr rest, r.ranges = sr :: rest ∧
              (sr.get_slice.stop = none ∨ sr.get_slice.stop = some 0 ∨
                ∃ st, sr.get_slice.start = some st ∧
                  st ≠ ((splitChunk r.unit false []).length : Int))))) ∧
    (∀ r sr rest,
      (some ⟨RangeUnits.tokens, [⟨some 0, some 1⟩]⟩ : Option Range) = some r →
      r.ranges = sr :: rest → r.ranges.length ≤ 1 →
      sr.get_slice.stop ≠ none → sr.get_slice.stop ≠ some 0 →
      (∀ st, sr.get_slice.start = some st →
        st = ((splitChunk r.unit false []).length : Int)) →
      validateCtx splitChunk
          ⟨FigmentStatus.pending, some ⟨RangeUnits.tokens, [⟨some 0, some 1⟩]⟩,
            ⟨some []⟩⟩ =
        Except.ok
          (⟨FigmentStatus.pending,
            some ⟨RangeUnits.tokens, [⟨some 0, some 1⟩]⟩, ⟨some []⟩⟩,
            some sr.get_slice)) :=
  c6_validate_characterization splitChunk
    ⟨FigmentStatus.pending, some ⟨RangeUnits.tokens, [⟨some 0, some 1⟩]⟩,
      ⟨some []⟩⟩ [] rfl _ rfl
    (fun r hr => by cases hr; simp)

/-- C4: for a context that passed validation (so its single subrange's
slice stop is set) and received a non-empty filtered sample, the default
character-entry `figmentate` sets the status to `completed` when the range
is finite and the chunked length of the appended description strictly
exceeds `end+1`, and to `partialStatus` when that length is at most
`end+1` or the range is not finite. -/
theorem c4_completion_semantics (ch : Chunk) (r : Range) (sr : Subrange)
    (e : Int) (desc sl : List Char) (stopV : Int)
    (hr : r.ranges = [sr]) (hend : sr.end' = some e)
    (hstop : sr.get_slice.stop = some stopV) (_hsl : sl ≠ []) :
    ((r.is_finite = true ∧
        e + 1 < ((ch r.unit true (desc ++ sl)).length : Int)) →
      (applySample ch r desc sl stopV).1 = FigmentStatus.completed) ∧
    ((r.is_finite = false ∨
        ((ch r.unit true (desc ++ sl)).length : Int) ≤ e + 1) →
      (applySample ch r desc sl stopV).1 = FigmentStatus.partialStatus) := by
  have happ : (applySample ch r desc sl stopV).1 =
      (if r.is_finite ∧ stopV < ((ch r.unit true (desc ++ sl)).length : Int)
        then FigmentStatus.completed else FigmentStatus.partialStatus) := rfl
  have key : r.is_finite = true → stopV = e + 1 := by
    intro hfin
    rw [Range.is_finite, hr] at hfin
    simp only [List.length_cons, List.length_nil] at hfin
    rw [if_neg (by simp)] at hfin
    have hstart : ¬ sr.start = none := by
      intro hs
      simp [hs] at hfin
    simp only [Subrange.get_slice] at hstop
    rw [if_neg (by rw [hend]; simp [hstart])] at hstop
    rw [hend] at hstop
    simp only [Option.map_some', Option.some.injEq] at hstop
    omega
  constructor
  · rintro ⟨hfin, hlt⟩
    rw [happ, if_pos ⟨hfin, by rw [key hfin]; exact hlt⟩]
  · intro h2
    rcases h2 with hfinF | hle
    · rw [happ, if_neg]
      rintro ⟨hf, _⟩
      rw [hfinF] at hf
      exact Bool.false_ne_true hf
    · by_cases hfin : r.is_finite = true
      · rw [happ, if_neg]
        rintro ⟨_, hlt⟩
        rw [key hfin] at hlt
        omega
      · rw [happ, if_neg]
        rintro ⟨hf, _⟩
        exact hfin hf

/-- Witness for C4: range `tokens=0-0` over an empty description with the
two-token sample `"a b"` — chunked length `2 > 0+1`, so `completed`. -/
theorem c4_completion_semantics_witness :
    (((⟨RangeUnits.tokens, [⟨some 0, some 0⟩]⟩ : Range).is_finite = true ∧
        (0 : Int) + 1 <
          ((splitChunk RangeUnits.tokens true ([] ++ ['a', ' ', 'b'])).length : Int)) →
      (applySample splitChunk ⟨RangeUnits.tokens, [⟨some 0, some 0⟩]⟩ []
        ['a', ' ', 'b'] 1).1 = FigmentStatus.completed) ∧
    (((⟨RangeUnits.tokens, [⟨some 0, some 0⟩]⟩ : Range).is_finite = false ∨
        ((splitChunk RangeUnits.tokens true ([] ++ ['a', ' ', 'b'])).length : Int) ≤
          (0 : Int) + 1) →
      (applySample splitChunk ⟨RangeUnits.tokens, [⟨some 0, some 0⟩]⟩ []
        ['a', ' ', 'b'] 1).1 = FigmentStatus.partialStatus) :=
  c4_completion_semantics splitChunk ⟨RangeUnits.tokens, [⟨some 0, some 0⟩]⟩
    ⟨some 0, some 0⟩ 0 [] ['a', ' ', 'b'] 1 rfl rfl rfl (by simp)

/-- Helper for C10: a context whose range is present with an empty subrange
list makes `validate` raise (`context.range.slices[0]` on an empty list is
an `IndexError`). -/
theorem validateCtx_empty_ranges (ch : Chunk) (ctx : FigmentContext)
    (r : Range) (hr : ctx.range = some r) (hranges : r.ranges = []) :
    validateCtx ch ctx = Except.error () := by
  obtain ⟨cst, crange, centry⟩ := ctx
  obtain ⟨runit, rranges⟩ := r
  simp only at hr
  subst hr
  simp only [Range.ranges] at hranges
  subst hranges
  rfl

/-- Helper for C10: the validation loop of `figmentate` propagates the
`IndexError` whenever any context in the batch carries an empty subrange
list. -/
theorem firstLoop_empty_ranges_error {P : Type} (ch : Chunk)
    (proc : FigmentContext → Option P) :
    ∀ (contexts : List FigmentContext),
      (∃ ctx ∈ contexts, ∃ r, ctx.range = some r ∧ r.ranges = []) →
      firstLoop ch proc contexts = Except.error () := by
  intro contexts
  induction contexts with
  | nil => rintro ⟨ctx, hmem, _⟩; exact absurd hmem (by simp)
  | cons ctx rest ih =>
      rintro ⟨ctx', hmem, r, hr, hranges⟩
      rcases List.mem_cons.1 hmem with rfl | hmem'
      · simp only [firstLoop, validateCtx_empty_ranges ch ctx' r hr hranges]
      · have herr := ih ⟨ctx', hmem', r, hr, hranges⟩
        simp only [firstLoop]
        rcases hv : validateCtx ch ctx with e | ⟨ctx1, oseg⟩
        · rfl
        · rcases oseg with _ | seg
          · simp [herr, Except.map]
          · rcases hp : proc ctx1 with _ | q
            · simp [hp, herr, Except.map]
            · simp [hp, herr, Except.map]

/-- C10: if any context in a batch carries a `Range` whose subrange list is
empty, `CharacterEntryFigmentator.figmentate` raises (`validate` checks
only that there is not more than one subrange before indexing
`slices[0]`), so the whole batch's processing aborts with the exception
instead of that one context being marked failed. -/
theorem c10_empty_ranges_aborts_batch {P : Type} (ch : Chunk)
    (proc : FigmentContext → Option P)
    (sampleFn : List P → List (Option (List Char)))
    (profan : List Char → List Char) (contexts : List FigmentContext)
    (hbad : ∃ ctx ∈ contexts, ∃ r, ctx.range = some r ∧ r.ranges = []) :
    figmentate ch proc sampleFn profan contexts = Except.error () := by
  rw [figmentate, firstLoop_empty_ranges_error ch proc contexts hbad]

/-- Witness for C10 with a one-element batch whose range has no subrange. -/
theorem c10_empty_ranges_aborts_batch_witness :
    figmentate (P := Unit) splitChunk (fun _ => some ()) (fun _ => [])
      (fun t => t)
      [⟨FigmentStatus.pending, some ⟨RangeUnits.tokens, []⟩, ⟨none⟩⟩] =
      Except.error () :=
  c10_empty_ranges_aborts_batch splitChunk (fun _ => some ()) (fun _ => [])
    (fun t => t)
    [⟨FigmentStatus.pending, some ⟨RangeUnits.tokens, []⟩, ⟨none⟩⟩]
    ⟨⟨FigmentStatus.pending, some ⟨RangeUnits.tokens, []⟩, ⟨none⟩⟩,
      by simp, ⟨RangeUnits.tokens, []⟩, rfl, rfl⟩

/-- Helper: every rendered digit is a digit character. -/
theorem digitChar10_isDigit (d : Nat) : (digitChar10 d).isDigit = true := by
  unfold digitChar10
  split <;> rfl

/-- Helper: a digit character is not a comma (nor a dash). -/
theorem isDigit_ne_comma {c : Char} (h : c.isDigit = true) : ¬ c = ',' := by
  intro hc
  subst hc
  exact absurd h (by decide)

/-- Helper: rendered digits below the base decode to themselves. -/
theorem digitChar10_toNat (d : Nat) (h : d < 10) :
    (digitChar10 d).toNat - 48 = d := by
  interval_cases d <;> rfl

/-- Helper: the decimal rendering of a natural number is non-empty. -/
theorem natToChars_ne_nil (n : Nat) : natToChars n ≠ [] := by
  unfold natToChars
  split
  · simp
  · next h =>
      have hd : Nat.digits 10 n ≠ [] := Nat.digits_ne_nil_iff_ne_zero.2 h
      simp [hd]

/-- Helper: the decimal rendering consists of digit characters. -/
theorem natToChars_all_digits (n : Nat) :
    ∀ c ∈ natToChars n, c.isDigit = true := by
  unfold natToChars
  split
  · intro c hc
    simp only [List.mem_singleton] at hc
    subst hc
    rfl
  · intro c hc
    simp only [List.mem_map] at hc
    obtain ⟨d, _, rfl⟩ := hc
    exact digitChar10_isDigit d

/-- Helper: decoding big-endian digit characters below base 10 is
`Nat.ofDigits` of the little-endian digit list. -/
theorem foldr_digitChar10 (L : List Nat) (hL : ∀ d ∈ L, d < 10) :
    L.foldr (fun d a => 10 * a + ((digitChar10 d).toNat - 48)) 0 =
      Nat.ofDigits 10 L := by
  induction L with
  | nil => rfl
  | cons d L' ih =>
      have hd : d < 10 := hL d (by simp)
      have ih' := ih (fun x hx => hL x (by simp [hx]))
      simp only [List.foldr_cons, ih', digitChar10_toNat d hd,
        Nat.ofDigits_cons]
      ring

/-- Helper: `digitsVal` inverts `natToChars`. -/
theorem digitsVal_natToChars (n : Nat) : digitsVal (natToChars n) = n := by
  by_cases h : n = 0
  · subst h; rfl
  · unfold natToChars digitsVal
    rw [if_neg h, List.foldl_map, List.foldl_reverse]
    have := foldr_digitChar10 (Nat.digits 10 n)
      (fun d hd => Nat.digits_lt_base (by norm_num) hd)
    calc (Nat.digits 10 n).foldr
          (fun x y => 10 * y + ((digitChar10 x).toNat - 48)) 0
        = Nat.ofDigits 10 (Nat.digits 10 n) := this
      _ = n := Nat.ofDigits_digits 10 n

/-- Helper: the rendering of a non-negative integer is its natural
rendering. -/
theorem intToChars_nonneg (i : Int) (h : 0 ≤ i) :
    intToChars i = natToChars i.toNat := by
  unfold intToChars
  rw [if_neg (by omega)]

/-- Helper: `takeWhile`/`dropWhile` stop exactly at the first failing
character. -/
theorem takeWhile_dropWhile_append (p : Char → Bool) :
    ∀ (xs ys : List Char), (∀ c ∈ xs, p c = true) →
      (ys = [] ∨ ∃ c t, ys = c :: t ∧ p c = false) →
      (xs ++ ys).takeWhile p = xs ∧ (xs ++ ys).dropWhile p = ys := by
  intro xs
  induction xs with
  | nil =>
      intro ys _ hys
      rcases hys with rfl | ⟨c, t, rfl, hc⟩
      · exact ⟨rfl, rfl⟩
      · simp [List.takeWhile_cons, List.dropWhile_cons, hc]
  | cons x xs' ih =>
      intro ys hall hys
      have hx : p x = true := hall x (by simp)
      have := ih ys (fun c hc => hall c (by simp [hc])) hys
      simp [List.takeWhile_cons, List.dropWhile_cons, hx, this.1, this.2]

/-- Helper: a non-empty list is not `isEmpty`. -/
theorem isEmpty_false_of_ne_nil {α : Type} {l : List α} (h : l ≠ []) :
    l.isEmpty = false := by
  cases l with
  | nil => exact absurd rfl h
  | cons a t => rfl

/-- Helper: the decimal rendering starts with a digit character. -/
theorem natToChars_cons (n : Nat) :
    ∃ c t, natToChars n = c :: t ∧ c.isDigit = true := by
  obtain ⟨c, t, hct⟩ := List.exists_cons_of_ne_nil (natToChars_ne_nil n)
  exact ⟨c, t, hct, natToChars_all_digits n c (by rw [hct]; simp)⟩

/-- Helper: one rendered subrange parses back to itself, leaving exactly
the tail (which is empty or starts the next `,`-separated subrange). -/
theorem matchSubCore_render (sr : Subrange) (tail : List Char)
    (hgood : goodSub sr) (htail : tail = [] ∨ ∃ t, tail = ',' :: t) :
    matchSubCore (renderSub sr ++ tail) = some (sr, tail) := by
  obtain ⟨os, oe⟩ := sr
  obtain ⟨hor, hs, he⟩ := hgood
  have htail' : tail = [] ∨ ∃ c t, tail = c :: t ∧ Char.isDigit c = false := by
    rcases htail with rfl | ⟨t, rfl⟩
    · exact Or.inl rfl
    · exact Or.inr ⟨',', t, rfl, by decide⟩
  cases os with
  | some a =>
      have ha : 0 ≤ a := hs a rfl
      cases oe with
      | some b =>
          have hb : 0 ≤ b := he b rfl
          have hrender : renderSub ⟨some a, some b⟩ ++ tail =
              natToChars a.toNat ++ ('-' :: (natToChars b.toNat ++ tail)) := by
            simp [renderSub, intToChars_nonneg _ ha, intToChars_nonneg _ hb]
          have h1 := takeWhile_dropWhile_append Char.isDigit
            (natToChars a.toNat) ('-' :: (natToChars b.toNat ++ tail))
            (natToChars_all_digits _) (Or.inr ⟨'-', _, rfl, by decide⟩)
          have h2 := takeWhile_dropWhile_append Char.isDigit
            (natToChars b.toNat) tail (natToChars_all_digits _) htail'
          rw [hrender]
          simp only [matchSubCore, h1.1, h1.2,
            isEmpty_false_of_ne_nil (natToChars_ne_nil a.toNat), h2.1, h2.2,
            isEmpty_false_of_ne_nil (natToChars_ne_nil b.toNat)]
          simp only [Bool.false_eq_true, if_false]
          rw [digitsVal_natToChars, digitsVal_natToChars]
          rw [Int.toNat_of_nonneg ha, Int.toNat_of_nonneg hb]
      | none =>
          have hrender : renderSub ⟨some a, none⟩ ++ tail =
              natToChars a.toNat ++ ('-' :: tail) := by
            simp [renderSub, intToChars_nonneg _ ha]
          have h1 := takeWhile_dropWhile_append Char.isDigit
            (natToChars a.toNat) ('-' :: tail)
            (natToChars_all_digits _) (Or.inr ⟨'-', _, rfl, by decide⟩)
          have h2 : tail.takeWhile Char.isDigit = [] ∧
              tail.dropWhile Char.isDigit = tail := by
            have := takeWhile_dropWhile_append Char.isDigit [] tail
              (by simp) htail'
            simpa using this
          rw [hrender]
          simp only [matchSubCore, h1.1, h1.2,
            isEmpty_false_of_ne_nil (natToChars_ne_nil a.toNat), h2.1, h2.2]
          simp only [Bool.false_eq_true, if_false, List.isEmpty_nil, if_true]
          rw [digitsVal_natToChars, Int.toNat_of_nonneg ha]
  | none =>
      cases oe with
      | none =>
          exfalso
          rcases hor with h | h
          · exact h rfl
          · exact h rfl
      | some b =>
          have hb : 0 ≤ b := he b rfl
          obtain ⟨cb, tb, hcb, hcbd⟩ := natToChars_cons b.toNat
          have hrender : renderSub ⟨none, some b⟩ ++ tail =
              '-' :: (natToChars b.toNat ++ tail) := by
            simp [renderSub, intToChars_nonneg _ hb]
          have h2 := takeWhile_dropWhile_append Char.isDigit
            (natToChars b.toNat) tail (natToChars_all_digits _) htail'
          have hlook : lookFail (natToChars b.toNat ++ tail) = false := by
            rw [hcb]
            simp only [List.cons_append, lookFail]
            exact decide_eq_false (isDigit_ne_comma hcbd)
          rw [hrender]
          have hdropdash : Char.isDigit '-' = false := by decide
          simp only [matchSubCore, List.takeWhile_cons, hdropdash,
            Bool.false_eq_true, if_false, List.isEmpty_nil, if_true,
            hlook, h2.1, h2.2,
            isEmpty_false_of_ne_nil (natToChars_ne_nil b.toNat)]
          rw [digitsVal_natToChars, Int.toNat_of_nonneg hb]

/-- Helper: a rendered subrange starts with a digit or a dash, never a
comma. -/
theorem renderSub_head (sr : Subrange) :
    ∃ c t, renderSub sr = c :: t ∧ ¬ c = ',' := by
  obtain ⟨os, oe⟩ := sr
  cases os with
  | none => exact ⟨'-', _, rfl, by decide⟩
  | some i =>
      by_cases hi : i < 0
      · have hic : intToChars i = '-' :: natToChars i.natAbs := by
          rw [intToChars, if_pos hi]
        cases oe with
        | none =>
            have hr : renderSub ⟨some i, none⟩ =
                '-' :: (natToChars i.natAbs ++ ['-']) := by
              simp only [renderSub]
              rw [hic]
              rfl
            exact ⟨'-', _, hr, by decide⟩
        | some j =>
            have hr : renderSub ⟨some i, some j⟩ =
                '-' :: (natToChars i.natAbs ++ '-' :: intToChars j) := by
              simp only [renderSub]
              rw [hic]
              rfl
            exact ⟨'-', _, hr, by decide⟩
      · obtain ⟨c, t, hct, hcd⟩ := natToChars_cons i.toNat
        have hic : intToChars i = c :: t := by
          rw [intToChars, if_neg hi, hct]
        cases oe with
        | none =>
            have hr : renderSub ⟨some i, none⟩ = c :: (t ++ ['-']) := by
              simp only [renderSub]
              rw [hic]
              rfl
            exact ⟨c, _, hr, isDigit_ne_comma hcd⟩
        | some j =>
            have hr : renderSub ⟨some i, some j⟩ =
                c :: (t ++ '-' :: intToChars j) := by
              simp only [renderSub]
              rw [hic]
              rfl
            exact ⟨c, _, hr, isDigit_ne_comma hcd⟩

/-- Helper: a rendered subrange is non-empty. -/
theorem renderSub_length (sr : Subrange) : 1 ≤ (renderSub sr).length := by
  obtain ⟨c, t, hct, _⟩ := renderSub_head sr
  rw [hct]
  simp

/-- Helper: `matchSub` — the subrange matcher with its optional leading
comma — on a rendered subrange reduces to the core matcher, because the
rendering never starts with a comma. -/
theorem matchSub_render (b : Bool) (sr : Subrange) (tail : List Char)
    (hgood : goodSub sr) (htail : tail = [] ∨ ∃ t, tail = ',' :: t) :
    matchSub b (renderSub sr ++ tail) = some (sr, tail) := by
  obtain ⟨c, t, hct, hcc⟩ := renderSub_head sr
  have hsplit : renderSub sr ++ tail = c :: (t ++ tail) := by
    rw [hct]
    rfl
  rw [hsplit]
  simp only [matchSub]
  rw [if_neg (by rintro ⟨_, h⟩; exact hcc h)]
  rw [← hsplit]
  exact matchSubCore_render sr tail hgood htail

/-- Helper: after a separator, `matchSub` first tries to consume the
comma. -/
theorem matchSub_comma (cs : List Char) :
    matchSub false (',' :: cs) =
      (match matchSubCore cs with
        | some r => some r
        | none => matchSubCore (',' :: cs)) := rfl

/-- Helper: stripping a literal sequence off itself leaves the tail. -/
theorem stripPre_self : ∀ (p s : List Char), stripPre p (p ++ s) = some s := by
  intro p
  induction p with
  | nil => intro s; rfl
  | cons c p' ih =>
      intro s
      simp only [List.cons_append, stripPre, if_pos rfl]
      exact ih s

/-- Helper: a comma-joined rendering of non-empty, wire-representable
subranges parses back under `(SUBRANGE)+` with any sufficient fuel, both
at the very start of the `ranges` group and after a separating comma. -/
theorem subrangesFrom_render :
    ∀ (l : List Subrange), l ≠ [] → (∀ sr ∈ l, goodSub sr) →
      (∀ fuel, (renderList l).length ≤ fuel →
        subrangesFrom fuel true (renderList l) = some l) ∧
      (∀ fuel, (renderList l).length + 1 ≤ fuel →
        subrangesFrom fuel false (',' :: renderList l) = some l) := by
  intro l
  induction l with
  | nil => intro h; exact absurd rfl h
  | cons sr rest ih =>
      intro _ hgood
      have hgsr : goodSub sr := hgood sr (by simp)
      have hsrlen := renderSub_length sr
      cases rest with
      | nil =>
          constructor
          · intro fuel hfuel
            have h1 : 1 ≤ fuel := le_trans (by
              simpa [renderList] using hsrlen) hfuel
            obtain ⟨f', rfl⟩ : ∃ f', fuel = f' + 1 := ⟨fuel - 1, by omega⟩
            simp only [subrangesFrom, renderList]
            rw [show renderSub sr = renderSub sr ++ [] from by simp]
            rw [matchSub_render true sr [] hgsr (Or.inl rfl)]
            rfl
          · intro fuel hfuel
            obtain ⟨f', rfl⟩ : ∃ f', fuel = f' + 1 := ⟨fuel - 1, by omega⟩
            simp only [subrangesFrom, renderList]
            rw [matchSub_comma]
            rw [show renderSub sr = renderSub sr ++ [] from by simp]
            rw [matchSubCore_render sr [] hgsr (Or.inl rfl)]
            rfl
      | cons sr2 rest2 =>
          have hne2 : sr2 :: rest2 ≠ [] := by simp
          have hgood2 : ∀ s ∈ sr2 :: rest2, goodSub s :=
            fun s hs => hgood s (by simp [hs])
          obtain ⟨_, ihF⟩ := ih hne2 hgood2
          have hrl : renderList (sr :: sr2 :: rest2) =
              renderSub sr ++ ',' :: renderList (sr2 :: rest2) := rfl
          have hrlen : (renderList (sr :: sr2 :: rest2)).length =
              (renderSub sr).length + 1 + (renderList (sr2 :: rest2)).length := by
            rw [hrl]
            simp
            omega
          constructor
          · intro fuel hfuel
            obtain ⟨f', rfl⟩ : ∃ f', fuel = f' + 1 := ⟨fuel - 1, by omega⟩
            simp only [subrangesFrom]
            rw [hrl, matchSub_render true sr (',' :: renderList (sr2 :: rest2))
              hgsr (Or.inr ⟨_, rfl⟩)]
            have hrec := ihF f' (by omega)
            simp [hrec]
          · intro fuel hfuel
            obtain ⟨f', rfl⟩ : ∃ f', fuel = f' + 1 := ⟨fuel - 1, by omega⟩
            simp only [subrangesFrom, hrl]
            rw [matchSub_comma]
            rw [matchSubCore_render sr (',' :: renderList (sr2 :: rest2))
              hgsr (Or.inr ⟨_, rfl⟩)]
            have hrec := ihF f' (by omega)
            simp [hrec]

/-- Counterexample to C5 as stated: the empty subrange list is
constructible in the data model (it is even the field's default), but
`str(Range(unit=words, ranges=[]))` is `"words="`, which `RANGE_REGEX`
rejects — the `ranges` group needs at least one subrange — so
`Range.validate` raises instead of returning an equal `Range`. -/
theorem c5_empty_ranges_no_roundtrip :
    rangeValidate (rangeRender ⟨RangeUnits.words, []⟩) = none ∧
      (none : Option Range) ≠ some ⟨RangeUnits.words, []⟩ :=
  ⟨rfl, by simp⟩

/-- C5 (amended): parsing the string form returns an equal `Range` for
every `Range` whose subrange list is non-empty and whose subranges each
have at least one bound, all bounds non-negative.  (An empty list renders
as a bare `unit=`, a both-bounds-missing subrange as a bare `-`, and a
negative bound with a `-` sign — all outside the wire grammar, so
`validate` raises or mis-parses there.) -/
theorem c5_roundtrip (r : Range) (hne : r.ranges ≠ [])
    (hgood : ∀ sr ∈ r.ranges, goodSub sr) :
    rangeValidate (rangeRender r) = some r := by
  obtain ⟨u, l⟩ := r
  simp only [Range.ranges] at hne hgood
  have hmain := (subrangesFrom_render l hne hgood).1 (renderList l).length le_rfl
  cases u with
  | chars =>
      have hu : tryUnit RangeUnits.chars (rangeRender ⟨RangeUnits.chars, l⟩) =
          some ⟨RangeUnits.chars, l⟩ := by
        simp only [tryUnit, rangeRender]
        rw [show unitChars RangeUnits.chars ++ '=' :: renderList l =
          (unitChars RangeUnits.chars ++ ['=']) ++ renderList l from by simp]
        rw [stripPre_self, Option.some_bind, hmain]
        rfl
      simp only [rangeValidate, hu]
  | words =>
      have hu : tryUnit RangeUnits.words (rangeRender ⟨RangeUnits.words, l⟩) =
          some ⟨RangeUnits.words, l⟩ := by
        simp only [tryUnit, rangeRender]
        rw [show unitChars RangeUnits.words ++ '=' :: renderList l =
          (unitChars RangeUnits.words ++ ['=']) ++ renderList l from by simp]
        rw [stripPre_self, Option.some_bind, hmain]
        rfl
      have h1 : tryUnit RangeUnits.chars (rangeRender ⟨RangeUnits.words, l⟩) =
          none := rfl
      simp only [rangeValidate, h1, hu]
  | tokens =>
      have hu : tryUnit RangeUnits.tokens (rangeRender ⟨RangeUnits.tokens, l⟩) =
          some ⟨RangeUnits.tokens, l⟩ := by
        simp only [tryUnit, rangeRender]
        rw [show unitChars RangeUnits.tokens ++ '=' :: renderList l =
          (unitChars RangeUnits.tokens ++ ['=']) ++ renderList l from by simp]
        rw [stripPre_self, Option.some_bind, hmain]
        rfl
      have h1 : tryUnit RangeUnits.chars (rangeRender ⟨RangeUnits.tokens, l⟩) =
          none := rfl
      have h2 : tryUnit RangeUnits.words (rangeRender ⟨RangeUnits.tokens, l⟩) =
          none := rfl
      simp only [rangeValidate, h1, h2, hu]
  | sentences =>
      have hu : tryUnit RangeUnits.sentences
          (rangeRender ⟨RangeUnits.sentences, l⟩) =
          some ⟨RangeUnits.sentences, l⟩ := by
        simp only [tryUnit, rangeRender]
        rw [show unitChars RangeUnits.sentences ++ '=' :: renderList l =
          (unitChars RangeUnits.sentences ++ ['=']) ++ renderList l from by simp]
        rw [stripPre_self, Option.some_bind, hmain]
        rfl
      have h1 : tryUnit RangeUnits.chars
          (rangeRender ⟨RangeUnits.sentences, l⟩) = none := rfl
      have h2 : tryUnit RangeUnits.words
          (rangeRender ⟨RangeUnits.sentences, l⟩) = none := rfl
      have h3 : tryUnit RangeUnits.tokens
          (rangeRender ⟨RangeUnits.sentences, l⟩) = none := rfl
      simp only [rangeValidate, h1, h2, h3, hu]

/-- Witness for C5 (amended): `words=5-10,0-` round-trips. -/
theorem c5_roundtrip_witness :
    rangeValidate (rangeRender
        ⟨RangeUnits.words, [⟨some 5, some 10⟩, ⟨some 0, none⟩]⟩) =
      some ⟨RangeUnits.words, [⟨some 5, some 10⟩, ⟨some 0, none⟩]⟩ :=
  c5_roundtrip ⟨RangeUnits.words, [⟨some 5, some 10⟩, ⟨some 0, none⟩]⟩
    (by simp)
    (by
      intro sr hsr
      simp only [Range.ranges, List.mem_cons, List.mem_singleton] at hsr
      rcases hsr with rfl | rfl | h
      · exact ⟨Or.inl (by simp), fun i h => by cases h; norm_num,
          fun i h => by cases h; norm_num⟩
      · exact ⟨Or.inl (by simp), fun i h => by cases h; norm_num,
          fun i h => by cases h⟩
      · exact absurd h (by simp))

/-- Helper: a pending word is always flushed, so the split of its
continuation is non-empty. -/
theorem splitGo_ne_nil : ∀ (v acc : List Char), acc ≠ [] → splitGo v acc ≠ [] := by
  intro v
  induction v with
  | nil =>
      intro acc h
      simp [splitGo, isEmpty_false_of_ne_nil h]
  | cons c cs ih =>
      intro acc h
      by_cases hc : isSpc c
      · simp [splitGo, hc, isEmpty_false_of_ne_nil h]
      · simp only [splitGo, hc, if_false, Bool.false_eq_true]
        exact ih (acc ++ [c]) (by simp)

/-- Helper: extending the text never loses words (`str.split` word count is
monotone under appending). -/
theorem splitGo_append_length_le :
    ∀ (u v acc : List Char),
      (splitGo u acc).length ≤ (splitGo (u ++ v) acc).length := by
  intro u
  induction u with
  | nil =>
      intro v acc
      cases acc with
      | nil => simp [splitGo]
      | cons a t =>
          have hpos : 0 < (splitGo v (a :: t)).length :=
            List.length_pos.2 (splitGo_ne_nil v (a :: t) (by simp))
          have hone : (splitGo ([] : List Char) (a :: t)).length = 1 := by
            simp [splitGo]
          rw [List.nil_append, hone]
          omega
  | cons c u' ih =>
      intro v acc
      by_cases hc : isSpc c
      · cases acc with
        | nil => simpa [splitGo, hc] using ih v []
        | cons a t => simpa [splitGo, hc] using ih v []
      · simpa [splitGo, hc] using ih v (acc ++ [c])

/-- Helper: word count of a prefix never exceeds that of the whole. -/
theorem pySplit_append_length_le (u v : List Char) :
    (pySplit u).length ≤ (pySplit (u ++ v)).length :=
  splitGo_append_length_le u v []

/-- Helper: splitting a space-headed text skips the space. -/
theorem pySplit_cons_space {c : Char} (cs : List Char) (hc : isSpc c = true) :
    pySplit (c :: cs) = pySplit cs := by
  simp [pySplit, splitGo, hc]

/-- Helper: with a pending word, `splitGo` finishes that word with the
leading non-space run and splits the rest. -/
theorem splitGo_acc :
    ∀ (cs acc : List Char), acc ≠ [] →
      splitGo cs acc =
        (acc ++ cs.takeWhile (fun x => !isSpc x)) ::
          pySplit (cs.dropWhile (fun x => !isSpc x)) := by
  intro cs
  induction cs with
  | nil =>
      intro acc h
      simp [splitGo, isEmpty_false_of_ne_nil h, pySplit]
  | cons d cs' ih =>
      intro acc h
      by_cases hd : isSpc d
      · have htw : List.takeWhile (fun x => !isSpc x) (d :: cs') = [] := by
          simp [List.takeWhile_cons, hd]
        have hdw : List.dropWhile (fun x => !isSpc x) (d :: cs') =
            d :: cs' := by
          simp [List.dropWhile_cons, hd]
        rw [htw, hdw, pySplit_cons_space cs' hd]
        simp [splitGo, hd, isEmpty_false_of_ne_nil h, pySplit]
      · have htw : List.takeWhile (fun x => !isSpc x) (d :: cs') =
            d :: List.takeWhile (fun x => !isSpc x) cs' := by
          simp [List.takeWhile_cons, hd]
        have hdw : List.dropWhile (fun x => !isSpc x) (d :: cs') =
            List.dropWhile (fun x => !isSpc x) cs' := by
          simp [List.dropWhile_cons, hd]
        rw [htw, hdw]
        have hLHS : splitGo (d :: cs') acc = splitGo cs' (acc ++ [d]) := by
          simp [splitGo, hd]
        rw [hLHS, ih (acc ++ [d]) (by simp)]
        simp

/-- Helper: splitting a word-headed text yields the leading word and the
split of the remainder. -/
theorem pySplit_cons_word {c : Char} (cs : List Char) (hc : isSpc c = false) :
    pySplit (c :: cs) =
      (c :: cs.takeWhile (fun x => !isSpc x)) ::
        pySplit (cs.dropWhile (fun x => !isSpc x)) := by
  have h0 : pySplit (c :: cs) = splitGo cs [c] := by
    simp [pySplit, splitGo, hc]
  rw [h0, splitGo_acc cs [c] (by simp)]
  rfl

/-- Helper: a whole word followed by space-or-nothing splits off as one
chunk. -/
theorem pySplit_word_append (w v : List Char) (hw : w ≠ [])
    (hwall : ∀ c ∈ w, isSpc c = false)
    (hv : v = [] ∨ ∃ c t, v = c :: t ∧ isSpc c = true) :
    pySplit (w ++ v) = w :: pySplit v := by
  obtain ⟨c, w', rfl⟩ := List.exists_cons_of_ne_nil hw
  have hc : isSpc c = false := hwall c (by simp)
  have htw := takeWhile_dropWhile_append (fun x => !isSpc x) w' v
    (fun x hx => by simp [hwall x (by simp [hx])])
    (by
      rcases hv with rfl | ⟨d, t, rfl, hd⟩
      · exact Or.inl rfl
      · exact Or.inr ⟨d, t, rfl, by simp [hd]⟩)
  rw [List.cons_append, pySplit_cons_word (w' ++ v) hc, htw.1, htw.2]

/-- Helper: the head of a `dropWhile` residue fails the predicate. -/
theorem dropWhile_head_false (p : Char → Bool) :
    ∀ (l : List Char) c t2, l.dropWhile p = c :: t2 → p c = false := by
  intro l
  induction l with
  | nil => intro c t2 h; simp at h
  | cons a l' ih =>
      intro c t2 h
      by_cases ha : p a
      · rw [List.dropWhile_cons, if_pos ha] at h
        exact ih c t2 h
      · rw [List.dropWhile_cons, if_neg ha] at h
        cases h
        exact Bool.eq_false_iff.2 ha

/-- Helper: the `k`-th word of a split occurs in the text at a position
preceded by at least `k` whole words.  Stated with a length bound for the
strong induction. -/
theorem pySplit_decompose :
    ∀ (n : Nat) (t : List Char), t.length ≤ n →
      ∀ k, k < (pySplit t).length →
        ∃ pre suf, t = pre ++ ((pySplit t).getD k [] ++ suf) ∧
          k ≤ (pySplit pre).length := by
  intro n
  induction n with
  | zero =>
      intro t ht k hk
      have : t = [] := List.length_eq_zero.1 (by omega)
      subst this
      simp [pySplit, splitGo] at hk
  | succ n ih =>
      intro t ht k hk
      cases t with
      | nil => simp [pySplit, splitGo] at hk
      | cons c cs =>
          by_cases hc : isSpc c
          · rw [pySplit_cons_space cs hc] at hk ⊢
            obtain ⟨pre, suf, heq, hcount⟩ := ih cs (by
              simp only [List.length_cons] at ht
              omega) k hk
            refine ⟨c :: pre, suf, ?_, ?_⟩
            · rw [List.cons_append, ← heq]
            · rw [pySplit_cons_space pre hc]
              exact hcount
          · have hc' : isSpc c = false := Bool.eq_false_iff.2 hc
            have hsplit := pySplit_cons_word cs hc'
            have htr : c :: cs =
                (c :: cs.takeWhile (fun x => !isSpc x)) ++
                  cs.dropWhile (fun x => !isSpc x) := by
              rw [List.cons_append, List.takeWhile_append_dropWhile]
            cases k with
            | zero =>
                refine ⟨[], cs.dropWhile (fun x => !isSpc x), ?_, by simp⟩
                rw [hsplit]
                simp only [List.getD_cons_zero, List.nil_append]
                exact htr
            | succ k' =>
                have hk' : k' <
                    (pySplit (cs.dropWhile (fun x => !isSpc x))).length := by
                  rw [hsplit] at hk
                  simpa using hk
                obtain ⟨pre', suf, heq, hcount⟩ :=
                  ih (cs.dropWhile (fun x => !isSpc x)) (by
                    have hsub := List.Sublist.length_le
                      (List.dropWhile_sublist (l := cs) (p := fun x => !isSpc x))
                    simp only [List.length_cons] at ht
                    omega) k' hk'
                set X := (pySplit (cs.dropWhile (fun x => !isSpc x))).getD k' []
                  with hX
                have hgetD : (pySplit (c :: cs)).getD (k' + 1) [] = X := by
                  rw [hsplit, List.getD_cons_succ, ← hX]
                have hw_ne : (c :: cs.takeWhile (fun x => !isSpc x)) ≠ [] := by
                  simp
                have hw_all : ∀ x ∈ c :: cs.takeWhile (fun x => !isSpc x),
                    isSpc x = false := by
                  intro x hx
                  rcases List.mem_cons.1 hx with rfl | hx'
                  · exact hc'
                  · have := List.mem_takeWhile_imp hx'
                    simpa using this
                have hcount2 : k' + 1 ≤
                    (pySplit ((c :: cs.takeWhile (fun x => !isSpc x)) ++ pre')).length := by
                  cases hpre : pre' with
                  | nil =>
                      have hk0 : k' = 0 := by
                        rw [hpre] at hcount
                        simpa [pySplit, splitGo] using hcount
                      subst hk0
                      have hone : pySplit ((c :: cs.takeWhile (fun x => !isSpc x)) ++ []) =
                          [c :: cs.takeWhile (fun x => !isSpc x)] := by
                        rw [pySplit_word_append _ [] hw_ne hw_all (Or.inl rfl)]
                        rfl
                      rw [hone]
                      simp
                  | cons q qt =>
                      have hqspace : isSpc q = true := by
                        have hhead : cs.dropWhile (fun x => !isSpc x) =
                            q :: (qt ++ (X ++ suf)) := by
                          rw [heq, hpre]
                          simp
                        have hq := dropWhile_head_false (fun x => !isSpc x)
                          cs q _ hhead
                        simpa using hq
                      rw [hpre] at hcount
                      rw [pySplit_word_append _ (q :: qt) hw_ne hw_all
                        (Or.inr ⟨q, qt, rfl, hqspace⟩)]
                      simp only [List.length_cons]
                      omega
                refine ⟨(c :: cs.takeWhile (fun x => !isSpc x)) ++ pre', suf, ?_, ?_⟩
                · rw [hgetD, List.append_assoc, ← heq, ← htr]
                · exact hcount2

/-- Helper: any decomposition yields an occurrence at the prefix length. -/
theorem occursAtB_of_decompose (pre pat suf t : List Char)
    (h : t = pre ++ (pat ++ suf)) : occursAtB pat t pre.length = true := by
  subst h
  simp [occursAtB, List.drop_left, List.take_left]

/-- Helper: if `pat` occurs at `q ≤ i`, the rightmost-occurrence scan from
`i` finds an occurrence at some `p ≥ q`. -/
theorem rindexAux_some_of_occurs (pat t : List Char) :
    ∀ (i q : Nat), occursAtB pat t q = true → q ≤ i →
      ∃ p, rindexAux pat t i = some p ∧ q ≤ p ∧ occursAtB pat t p = true := by
  intro i
  induction i with
  | zero =>
      intro q hq hle
      have : q = 0 := by omega
      subst this
      exact ⟨0, by simp [rindexAux, hq], le_rfl, hq⟩
  | succ i ih =>
      intro q hq hle
      by_cases hocc : occursAtB pat t (i + 1) = true
      · exact ⟨i + 1, by simp [rindexAux, hocc], by omega, hocc⟩
      · have hne : q ≠ i + 1 := fun h => hocc (h ▸ hq)
        obtain ⟨p, hp, hqp, hpo⟩ := ih q hq (by omega)
        refine ⟨p, ?_, hqp, hpo⟩
        simp only [rindexAux]
        rw [if_neg (by simpa using hocc)]
        exact hp

/-- Counterexample to C8 as stated: text `"a b ab"` under `tokens=0-0`.
The chunks are `["a","b","ab"]` and the chunk at index `end+1 = 1` is
`"b"`, which starts at byte position 2 — so the claim's truncation "at the
position preceding the chunk at index end+1" is `"a "` (`take 2`).  But
`text.rindex("b")` finds the rightmost *substring* occurrence, at position
5 inside the later token `"ab"`, so `trim` returns `"a b a"` — cutting in
the middle of a chunk of the original text, not at the claimed position. -/
theorem c8_rindex_cuts_mid_chunk :
    rangeTrim (fun _ _ t => pySplit t)
        ⟨RangeUnits.tokens, [⟨some 0, some 0⟩]⟩
        ['a', ' ', 'b', ' ', 'a', 'b'] =
      Except.ok ['a', ' ', 'b', ' ', 'a'] ∧
    pySplit ['a', ' ', 'b', ' ', 'a', 'b'] = [['a'], ['b'], ['a', 'b']] ∧
    (['a', ' ', 'b', ' ', 'a'] : List Char) ≠
      List.take 2 ['a', ' ', 'b', ' ', 'a', 'b'] := by
  refine ⟨rfl, rfl, by decide⟩

/-- C8 (amended, for the `tokens` unit, whose chunker `str.split` is
exactly embeddable): for a finite single-subrange range `tokens=s-e` and
any text, if the chunked length of the text exceeds `end+1` then
`Range.trim` returns the text truncated at the rightmost substring
occurrence `p` of the chunk at index `end+1` — a position at or after that
chunk's own start, though possibly inside a later chunk — and the
truncated text's chunked length is still at least `end+1`; otherwise
`trim` returns the text unchanged. -/
theorem c8_trim_tokenized (ch : Chunk)
    (hch : ∀ b t', ch RangeUnits.tokens b t' = pySplit t')
    (s e : Nat) (t : List Char) :
    ((e + 1 < (pySplit t).length →
      ∃ p, rindexOpt t ((pySplit t).getD (e + 1) []) = some p ∧
        rangeTrim ch ⟨RangeUnits.tokens, [⟨some (s : Int), some (e : Int)⟩]⟩ t =
          Except.ok (t.take p) ∧
        e + 1 ≤ (pySplit (t.take p)).length) ∧
     ((pySplit t).length ≤ e + 1 →
      rangeTrim ch ⟨RangeUnits.tokens, [⟨some (s : Int), some (e : Int)⟩]⟩ t =
        Except.ok t)) := by
  have hstop : (Subrange.get_slice ⟨some (s : Int), some (e : Int)⟩).stop =
      some ((e : Int) + 1) := by
    simp [Subrange.get_slice]
  constructor
  · intro hlt
    obtain ⟨pre, suf, heq, hcount⟩ :=
      pySplit_decompose t.length t le_rfl (e + 1) hlt
    set X := (pySplit t).getD (e + 1) [] with hX
    have hocc : occursAtB X t pre.length = true :=
      occursAtB_of_decompose pre _ suf t heq
    have hprelen : pre.length ≤ t.length := by
      rw [heq]
      simp
    obtain ⟨p, hp, hqp, _⟩ :=
      rindexAux_some_of_occurs X t t.length pre.length hocc hprelen
    have hrop : rindexOpt t X = some p := hp
    refine ⟨p, hrop, ?_, ?_⟩
    · simp only [rangeTrim, hstop, hch]
      rw [if_pos (by omega : ((e : Int) + 1) < ((pySplit t).length : Int))]
      have htonat : ((e : Int) + 1).toNat = e + 1 := by omega
      have hidx : pyIndex (pySplit t) ((e : Int) + 1) = some X := by
        rw [pyIndex, if_pos (by omega : (0 : Int) ≤ (e : Int) + 1), htonat]
        rw [List.get?_eq_getElem?, List.getElem?_eq_getElem hlt, hX,
          List.getD_eq_getElem _ _ hlt]
      rw [hidx]
      dsimp only
      rw [hrop]
    · have htp : t.take p = pre ++ ((X ++ suf).take (p - pre.length)) := by
        rw [heq, List.take_append_eq_append_take,
          List.take_of_length_le hqp]
      have hmono : (pySplit pre).length ≤ (pySplit (t.take p)).length := by
        rw [htp]
        exact pySplit_append_length_le pre _
      omega
  · intro hle
    simp only [rangeTrim, hstop, hch]
    rw [if_neg (by omega : ¬ ((e : Int) + 1) < ((pySplit t).length : Int))]

/-- Witness for C8 (amended) on `"a b c"` with range `tokens=0-0`: the
chunk at index 1 is `"b"`, its rightmost occurrence is its own position 2,
and `trim` keeps `"a "`, of chunked length `1 ≥ 0+1`. -/
theorem c8_trim_tokenized_witness :
    ((0 + 1 < (pySplit ['a', ' ', 'b', ' ', 'c']).length →
      ∃ p, rindexOpt ['a', ' ', 'b', ' ', 'c']
          ((pySplit ['a', ' ', 'b', ' ', 'c']).getD (0 + 1) []) = some p ∧
        rangeTrim splitChunk
            ⟨RangeUnits.tokens, [⟨some ((0 : Nat) : Int), some ((0 : Nat) : Int)⟩]⟩
            ['a', ' ', 'b', ' ', 'c'] =
          Except.ok (List.take p ['a', ' ', 'b', ' ', 'c']) ∧
        0 + 1 ≤ (pySplit (List.take p ['a', ' ', 'b', ' ', 'c'])).length) ∧
     ((pySplit ['a', ' ', 'b', ' ', 'c']).length ≤ 0 + 1 →
      rangeTrim splitChunk
          ⟨RangeUnits.tokens, [⟨some ((0 : Nat) : Int), some ((0 : Nat) : Int)⟩]⟩
          ['a', ' ', 'b', ' ', 'c'] =
        Except.ok ['a', ' ', 'b', ' ', 'c'])) :=
  c8_trim_tokenized splitChunk (fun _ _ => rfl) 0 0 ['a', ' ', 'b', ' ', 'c']

end Storium
